import Mathlib

/-!
Shallow embedding of the `fcheck` forward-checking CSP solver
(`src/fcheck.h`, namespace `fcheck`), restricted to the `*2` family of
entry points that the specification's claims are about:
`Assignment::Reset2`, `Assignment::ValidateConstraints2`,
`CSP::ForwardCheckingStep2`, the `Constraint2` hierarchy
(`OpConstraint2`, `EqualityConstraint2`, `OrEqualityConstraint2`,
`CombinedEqualityConstraint2`, `OrRangeConstraint2`) and the supporting
`Assignment` operations.

Modelling conventions:
* C++ `int` is modelled as `Int`; no arithmetic in the modelled paths
  overflows in the C++ code for the instances the theorems quantify over,
  and the bound hypotheses of the search theorems keep every value far
  away from `INT_MAX`.
* `InstVar` is a struct holding a single `int value`; we model the
  `inst_vars` array as `List Int` directly, with the sentinel
  `UNASSIGNED = -INT_MAX` for the default-constructed state.
* `Array<T>` (a `std::vector`) becomes `List`; reading `v[i]` is UB when
  `i` is out of range in C++, modelled totally by `List.getD` with the
  type's default value (the theorems' hypotheses keep indices in range
  wherever the distinction could matter).
* The `saved_domains` stack is a `List` whose HEAD is the `back()` of the
  C++ vector (most recently pushed frame).  A frame's inner `domains`
  vector keeps the C++ push-back order (append at the tail).
-/

namespace FCheck

/-- `VarId` is a dense nonnegative index (`using VarId = int`; the `*2`
API only ever produces indices `0, 1, 2, …`). -/
abbrev VarId := Nat

/-- `InstVar::UNASSIGNED = -INT_MAX` (with 32-bit `int`). -/
def UNASSIGNED : Int := -2147483647

/-- `enum class DomainType : int { Values = 0, Ranges }`. -/
inductive DomainType : Type where
  | Values : DomainType
  | Ranges : DomainType
deriving DecidableEq, Repr, Inhabited

/-- `struct Domain { DomainType type = Values; Array<int> values; }`.
In `Ranges` form `values` is read two at a time as half-open intervals
`[values[2k], values[2k+1])`. -/
structure Domain where
  type : DomainType := DomainType.Values
  values : List Int := []
deriving DecidableEq, Repr, Inhabited

/-- `struct SavedDomain { VarId var_id; DomainType type; Array<int> values; }`. -/
structure SavedDomain where
  var_id : VarId
  type : DomainType := DomainType.Values
  values : List Int := []
deriving DecidableEq, Repr, Inhabited

/-- `struct SavedDomainStep { int step = 0; Array<SavedDomain> domains; }`. -/
structure SavedDomainStep where
  step : Int := 0
  domains : List SavedDomain := []
deriving DecidableEq, Repr, Inhabited

/-- Mutable search state `class Assignment` (the fields used by the `*2`
code path; the optional stats counters are compiled out). -/
structure Assignment where
  assigned_var_count : Int := 0
  inst_vars : List Int := []
  current_domains : List Domain := []
  saved_domains : List SavedDomainStep := []
deriving DecidableEq, Repr, Inhabited

/-- Read of `inst_vars[vid].value`; a default-constructed `InstVar` reads
as `UNASSIGNED`. -/
def instValue (inst : List Int) (vid : VarId) : Int :=
  inst.getD vid UNASSIGNED

/-- `OpConstraint2::Op` is a scoped C++ enum with underlying type `int`;
only `Equal = 0` and `NotEqual = 1` are declared (the four comparison
enumerators of the legacy `Constraint::Op` are commented out in
`OpConstraint2`).  Every `int` inhabits the enum type, so we model it as
`Int`; `Evaluate`'s `switch` has no case for any other value and falls
through to `return false`. -/
abbrev COp := Int

/-- `OpConstraint2::Op::Equal` (`==`). -/
def COp.Equal : COp := 0

/-- `OpConstraint2::Op::NotEqual` (`!=`). -/
def COp.NotEqual : COp := 1

/-- `Constraint::Op::SupEqual` (`>=`), value 2 in the legacy enum; not an
enumerator of `OpConstraint2::Op`. -/
def COp.SupEqual : COp := 2

/-- `Constraint::Op::Sup` (`>`), value 3 in the legacy enum. -/
def COp.Sup : COp := 3

/-- `Constraint::Op::InfEqual` (`<=`), value 4 in the legacy enum. -/
def COp.InfEqual : COp := 4

/-- `Constraint::Op::Inf` (`<`), value 5 in the legacy enum. -/
def COp.Inf : COp := 5

/-- The five concrete `Constraint2` subclasses as a tagged sum
(the virtual dispatch becomes a `match`). -/
inductive Constraint2 : Type where
  | op (v0 v1 : VarId) (op : COp) (offset : Int) : Constraint2
  | equality (v0 v1 : VarId) : Constraint2
  | orEquality (v0 v1 v2 : VarId) : Constraint2
  | combinedEquality (v0 v1 v2 v3 : VarId) : Constraint2
  | orRange (v0 v1 : VarId) (min max : Int) : Constraint2
deriving DecidableEq, Repr

/-- The variable ids a constraint pushes itself onto in `LinkVars`,
in the order of the `push_back` calls. -/
def Constraint2.linkVarsOf : Constraint2 → List VarId
  | .op v0 v1 _ _ => [v0, v1]
  | .equality v0 v1 => [v0, v1]
  | .orEquality v0 v1 v2 => [v0, v1, v2]
  | .combinedEquality v0 v1 v2 v3 => [v0, v1, v2, v3]
  | .orRange v0 v1 _ _ => [v0, v1]

/-- The three-valued `Constraint2::Eval`. -/
inductive Eval : Type where
  | NA : Eval
  | Passed : Eval
  | Failed : Eval
deriving DecidableEq, Repr

/-- The kind-specific `Evaluate(inst_vars)` bodies.  For `OpConstraint2`,
the `switch` only handles `Equal` and `NotEqual` and falls through to
`return false` for any other operator value. -/
def Constraint2.evaluate (c : Constraint2) (inst : List Int) : Bool :=
  match c with
  | .op v0 v1 o offset =>
    if o = COp.Equal then instValue inst v0 = instValue inst v1 + offset
    else if o = COp.NotEqual then instValue inst v0 ≠ instValue inst v1 + offset
    else false
  | .equality v0 v1 => instValue inst v0 = instValue inst v1
  | .orEquality v0 v1 v2 =>
    instValue inst v0 = instValue inst v1 || instValue inst v0 = instValue inst v2
  | .combinedEquality v0 v1 v2 v3 =>
    instValue inst v0 = instValue inst v1 + instValue inst v2 - instValue inst v3
  | .orRange v0 v1 mn mx =>
    (decide (instValue inst v0 ≥ mn) && decide (instValue inst v0 < mx)) ||
    (decide (instValue inst v1 ≥ mn) && decide (instValue inst v1 < mx))

/-- The kind-specific `TryEvaluate(inst_vars)` bodies: each checks that
all of its variables are instantiated, then defers to `Evaluate`. -/
def Constraint2.tryEvaluate (c : Constraint2) (inst : List Int) : Eval :=
  match c with
  | .op v0 v1 _ _ =>
    if instValue inst v0 ≠ UNASSIGNED ∧ instValue inst v1 ≠ UNASSIGNED then
      (if c.evaluate inst then Eval.Passed else Eval.Failed)
    else Eval.NA
  | .equality v0 v1 =>
    if instValue inst v0 ≠ UNASSIGNED ∧ instValue inst v1 ≠ UNASSIGNED then
      (if c.evaluate inst then Eval.Passed else Eval.Failed)
    else Eval.NA
  | .orEquality v0 v1 v2 =>
    if instValue inst v0 ≠ UNASSIGNED ∧ instValue inst v1 ≠ UNASSIGNED ∧
        instValue inst v2 ≠ UNASSIGNED then
      (if c.evaluate inst then Eval.Passed else Eval.Failed)
    else Eval.NA
  | .combinedEquality v0 v1 v2 v3 =>
    if instValue inst v0 ≠ UNASSIGNED ∧ instValue inst v1 ≠ UNASSIGNED ∧
        instValue inst v2 ≠ UNASSIGNED ∧ instValue inst v3 ≠ UNASSIGNED then
      (if c.evaluate inst then Eval.Passed else Eval.Failed)
    else Eval.NA
  | .orRange v0 v1 _ _ =>
    if instValue inst v0 ≠ UNASSIGNED ∧ instValue inst v1 ≠ UNASSIGNED then
      (if c.evaluate inst then Eval.Passed else Eval.Failed)
    else Eval.NA

/-- `Assignment::IsComplete`. -/
def Assignment.isComplete (a : Assignment) : Bool :=
  a.assigned_var_count = (a.inst_vars.length : Int)

/-- `Assignment::GetInstVarValue`. -/
def Assignment.getInstVarValue (a : Assignment) (vid : VarId) : Int :=
  instValue a.inst_vars vid

/-- `Assignment::GetCurrentDomain`. -/
def Assignment.getCurrentDomain (a : Assignment) (vid : VarId) : Domain :=
  a.current_domains.getD vid { type := DomainType.Values, values := [] }

/-- `Assignment::NextUnassignedVar`: scan `inst_vars` from index 0 and
return the first index holding `UNASSIGNED`, or `inst_vars.size()` when
every variable is assigned (`List.findIdx` returns the length exactly in
that case). -/
def Assignment.nextUnassignedVar (a : Assignment) : VarId :=
  a.inst_vars.findIdx (fun v => v == UNASSIGNED)

/-- `Assignment::AssignVar` (stats counters compiled out). -/
def Assignment.assignVar (a : Assignment) (vid : VarId) (val : Int) : Assignment :=
  { a with
    inst_vars := a.inst_vars.set vid val
    assigned_var_count := a.assigned_var_count + 1 }

/-- `Assignment::UnAssignVar`. -/
def Assignment.unAssignVar (a : Assignment) (vid : VarId) : Assignment :=
  { a with
    inst_vars := a.inst_vars.set vid UNASSIGNED
    assigned_var_count := a.assigned_var_count - 1 }

/-- `Assignment::Reset2(domains)`: zero the counter, resize `inst_vars`
to all-`UNASSIGNED`, copy the model domains, clear the stack. -/
def Assignment.reset2 (domains : List Domain) : Assignment :=
  { assigned_var_count := 0
    inst_vars := List.replicate domains.length UNASSIGNED
    current_domains := domains
    saved_domains := [] }

/-- `Assignment::RestoreSavedDomainStep`: overwrite `current_domains` at
each saved entry of the TOP frame with the snapshot; the frame is neither
cleared nor popped.  `back()` on an empty stack is UB in C++; the engine
only calls this with a pushed frame, so the empty case is modelled as a
no-op. -/
def Assignment.restoreSavedDomainStep (a : Assignment) : Assignment :=
  match a.saved_domains with
  | [] => a
  | frame :: _ =>
    { a with
      current_domains :=
        frame.domains.foldl
          (fun cur sd => cur.set sd.var_id { type := sd.type, values := sd.values })
          a.current_domains }

/-- `Assignment::FindOrAddSavedDomain(vid, dom)`: search the TOP frame
for an entry for `vid`; if found return it (its `values` are the domain
as it was when first saved in this step, NOT the current values), else
push a snapshot of `dom` and return that.  Returns the updated assignment
together with the returned `SavedDomain`. -/
def Assignment.findOrAddSavedDomain (a : Assignment) (vid : VarId) (dom : Domain) :
    Assignment × SavedDomain :=
  match a.saved_domains with
  | [] => (a, { var_id := vid, type := dom.type, values := dom.values })
  | frame :: rest =>
    match frame.domains.find? (fun sd => sd.var_id == vid) with
    | some sd => (a, sd)
    | none =>
      let sd : SavedDomain := { var_id := vid, type := dom.type, values := dom.values }
      ({ a with saved_domains := { frame with domains := frame.domains ++ [sd] } :: rest }, sd)

/-- The ascending enumeration `min, min+1, …, max-1` of a half-open
interval `[min, max)` (empty when `max ≤ min`). -/
def rangeVals (lo hi : Int) : List Int :=
  (List.range (hi - lo).toNat).map (fun (i : Nat) => lo + (i : Int))

/-- Read a `Ranges`-form `values` list two at a time as `(min, max)`
pairs, the way every `r_idx += 2` loop in the source does. -/
def rangePairs : List Int → List (Int × Int)
  | a :: b :: t => (a, b) :: rangePairs t
  | _ => []

/-- The values a domain encodes, in the order `ForwardCheckingStep2`
tries them: the stored list for `Values` form, and each interval's
ascending enumeration (intervals in list order) for `Ranges` form. -/
def Domain.enumVals (d : Domain) : List Int :=
  match d.type with
  | DomainType.Values => d.values
  | DomainType.Ranges => (rangePairs d.values).flatMap (fun p => rangeVals p.1 p.2)

/-- The shared shape of every narrowing body in the `*2` constraints:
read the target's current domain, save it on first touch in this step
(`FindOrAddSavedDomain`), rebuild the domain from the SAVED values
(`dom.values.clear()` followed by pushes computed from `sav_dom.values`
and the current `dom.type`), and report a wipe-out when the rebuilt
domain is empty.  `mk` is the kind-specific rebuild. -/
def narrowWith (a : Assignment) (v0 : VarId)
    (mk : DomainType → List Int → Domain) : Bool × Assignment :=
  let dom := a.getCurrentDomain v0
  let fa := a.findOrAddSavedDomain v0 dom
  let newDom := mk dom.type fa.2.values
  let a2 := { fa.1 with current_domains := fa.1.current_domains.set v0 newDom }
  if newDom.values.isEmpty then (false, a2) else (true, a2)

/-- The inner `DoCheck` lambda of `OpConstraint2::AplyArcConsistency`.
Note two faithfully ported source behaviours: the rebuild reads
`sav_dom.values` (the first-touch snapshot of this step), and the
`Values`-form not-Equal branch pushes `oth_val` — the value being
excluded — instead of the surviving value `sav_dom.values[d_idx]`. -/
def opDoCheck (a : Assignment) (v0 : VarId) (oth_val : Int) (o : COp) :
    Bool × Assignment :=
  narrowWith a v0 (fun t sav =>
    match t with
    | DomainType.Values =>
      if o = COp.Equal then
        { type := DomainType.Values
          values := sav.filterMap
            (fun x => if oth_val = x then some oth_val else none) }
      else
        { type := DomainType.Values
          values := sav.filterMap
            (fun x => if oth_val ≠ x then some oth_val else none) }
    | DomainType.Ranges =>
      if o = COp.Equal then
        { type := DomainType.Values
          values := (rangePairs sav).filterMap
            (fun p => if p.1 ≤ oth_val ∧ oth_val < p.2 then some oth_val else none) }
      else
        { type := DomainType.Values
          values := (rangePairs sav).flatMap
            (fun p => (rangeVals p.1 p.2).filter (fun v => v ≠ oth_val)) })

/-- The inner `DoCheck` lambda of `EqualityConstraint2::AplyArcConsistency`:
keep only occurrences of `v1_val` (the `Ranges` branch re-materialises to
`Values` when the source sets `dom.type`; the `Values` branch leaves the
type, which is already `Values`). -/
def eqDoCheck (a : Assignment) (v0 : VarId) (v1_val : Int) : Bool × Assignment :=
  narrowWith a v0 (fun t sav =>
    match t with
    | DomainType.Values =>
      { type := DomainType.Values
        values := sav.filterMap
          (fun x => if v1_val = x then some v1_val else none) }
    | DomainType.Ranges =>
      { type := DomainType.Values
        values := (rangePairs sav).filterMap
          (fun p => if p.1 ≤ v1_val ∧ v1_val < p.2 then some v1_val else none) })

/-- The kind-specific `AplyArcConsistency(a)` bodies (stats compiled out).
`OrRangeConstraint2`'s body is `return true;` — the rest of it is inside
`#if 0`.  In `CombinedEqualityConstraint2` the local `v3_val` is read
from `inst_vars[v2]` — exactly as the source does. -/
def Constraint2.aplyArcConsistency (c : Constraint2) (a : Assignment) :
    Bool × Assignment :=
  match c with
  | .op v0 v1 o offset =>
    let v0_val := instValue a.inst_vars v0
    let v1_val := instValue a.inst_vars v1
    if v0_val = UNASSIGNED then opDoCheck a v0 (v1_val + offset) o
    else if v1_val = UNASSIGNED then opDoCheck a v1 (v0_val - offset) o
    else (true, a)
  | .equality v0 v1 =>
    let v0_val := instValue a.inst_vars v0
    let v1_val := instValue a.inst_vars v1
    if v0_val = UNASSIGNED then eqDoCheck a v0 v1_val
    else if v1_val = UNASSIGNED then eqDoCheck a v1 v0_val
    else (true, a)
  | .orEquality v0 v1 v2 =>
    let v0_val := instValue a.inst_vars v0
    let v1_val := instValue a.inst_vars v1
    let v2_val := instValue a.inst_vars v2
    if v0_val = UNASSIGNED ∧ v1_val ≠ UNASSIGNED ∧ v2_val ≠ UNASSIGNED then
      narrowWith a v0 (fun t sav =>
        match t with
        | DomainType.Values =>
          { type := DomainType.Values
            values := sav.filterMap
              (fun x =>
                if v1_val = x then some v1_val
                else if v2_val = x then some v2_val
                else none) }
        | DomainType.Ranges =>
          { type := DomainType.Values
            values := (rangePairs sav).flatMap
              (fun p =>
                (if p.1 ≤ v1_val ∧ v1_val < p.2 then [v1_val] else []) ++
                (if p.1 ≤ v2_val ∧ v2_val < p.2 then [v2_val] else [])) })
    else (true, a)
  | .combinedEquality v0 v1 v2 _v3 =>
    let v0_val := instValue a.inst_vars v0
    let v1_val := instValue a.inst_vars v1
    let v2_val := instValue a.inst_vars v2
    let v3_val := instValue a.inst_vars v2
    if v0_val = UNASSIGNED ∧ v1_val ≠ UNASSIGNED ∧ v2_val ≠ UNASSIGNED ∧
        v3_val ≠ UNASSIGNED then
      let comb_val := v1_val + v2_val - v3_val
      narrowWith a v0 (fun t sav =>
        match t with
        | DomainType.Values =>
          { type := DomainType.Values
            values :=
              match sav.find? (fun x => x == comb_val) with
              | some _ => [comb_val]
              | none => [] }
        | DomainType.Ranges =>
          { type := DomainType.Values
            values :=
              match (rangePairs sav).find?
                  (fun p => decide (p.1 ≤ comb_val) && decide (comb_val < p.2)) with
              | some _ => [comb_val]
              | none => [] })
    else (true, a)
  | .orRange _ _ _ _ => (true, a)

/-- `Assignment::ValidateConstraints2`: false iff some constraint of the
list evaluates to `Failed` (first failure wins, as in the early return). -/
def validateConstraints2 (cs : List Constraint2) (inst : List Int) : Bool :=
  cs.all (fun c => c.tryEvaluate inst ≠ Eval.Failed)

/-- The propagation loop of `ForwardCheckingStep2`
(`for (...; success && ...; ...) success &= AplyArcConsistency(a);`):
apply each constraint in order, stopping at the first wipe-out. -/
def propagateAll (cs : List Constraint2) (a : Assignment) : Bool × Assignment :=
  match cs with
  | [] => (true, a)
  | c :: rest =>
    match c.aplyArcConsistency a with
    | (true, a1) => propagateAll rest a1
    | (false, a1) => (false, a1)

/-- The model: `CSP::domains2` (one initial domain per `*2` variable, in
`AddIntVar2`/`AddBoolVar2` insertion order, so variable `vid` owns
`domains2[vid]`) and `CSP::constraints2` (insertion order). -/
structure CSP where
  domains2 : List Domain := []
  constraints2 : List Constraint2 := []
deriving DecidableEq, Repr

/-- `Var2::linked_constraints` for variable `vid` after all `LinkVars`
calls: each constraint, in arena order, contributes one reference per
occurrence of `vid` in its `LinkVars` push list. -/
def CSP.linkedConstraints (m : CSP) (vid : VarId) : List Constraint2 :=
  m.constraints2.flatMap
    (fun c => (c.linkVarsOf.filter (fun v => v == vid)).map (fun _ => c))

/-- Push a default-constructed `SavedDomainStep` frame
(`a.saved_domains.push_back(SavedDomainStep())`). -/
def Assignment.pushFrame (a : Assignment) : Assignment :=
  { a with saved_domains := ({ step := 0, domains := [] } : SavedDomainStep) :: a.saved_domains }

/-- Pop the top frame (`a.saved_domains.pop_back()`). -/
def Assignment.popFrame (a : Assignment) : Assignment :=
  { a with saved_domains := a.saved_domains.tail }

/-- The `LambdaStep` lambda of `ForwardCheckingStep2`, for one candidate
value: assign, validate the linked constraints, propagate arc consistency
through them, recurse (`next` is the recursive call at one unit less
fuel), and on any failure unassign (restoring the saved step when
propagation had run).  `none` means the fuel ran out somewhere below. -/
def lambdaStep (m : CSP) (next : Assignment → Option (Bool × Assignment))
    (vid : VarId) (a : Assignment) (val : Int) : Option (Bool × Assignment) :=
  let a1 := a.assignVar vid val
  if validateConstraints2 (m.linkedConstraints vid) a1.inst_vars then
    match propagateAll (m.linkedConstraints vid) a1 with
    | (true, a2) =>
      match next a2 with
      | none => none
      | some (true, a3) => some (true, a3)
      | some (false, a3) =>
        some (false, (a3.unAssignVar vid).restoreSavedDomainStep)
    | (false, a2) =>
      some (false, (a2.unAssignVar vid).restoreSavedDomainStep)
  else
    some (false, a1.unAssignVar vid)

/-- The candidate loop of `ForwardCheckingStep2` over the selected
variable's enumerated values (both domain forms enumerate with early exit
on success); when the list is exhausted, pop the frame and fail. -/
def tryVals (m : CSP) (next : Assignment → Option (Bool × Assignment))
    (vid : VarId) : List Int → Assignment → Option (Bool × Assignment)
  | [], a => some (false, a.popFrame)
  | v :: vs, a =>
    match lambdaStep m next vid a v with
    | none => none
    | some (true, a1) => some (true, a1)
    | some (false, a1) => tryVals m next vid vs a1

/-- `CSP::ForwardCheckingStep2`, with explicit fuel for the recursion
(`none` = fuel exhausted; the C++ recursion plays the role of unbounded
fuel).  The selected variable's domain is enumerated once at entry: the
C++ code iterates a reference into `current_domains[vid]`, but no
propagation in the level's subtree can touch `vid`'s domain while `vid`
is assigned, so the reference reads the entry-time contents. -/
def forwardCheckingStep2 (m : CSP) (fuel : Nat) :
    Assignment → Option (Bool × Assignment) :=
  match fuel with
  | 0 => fun _ => none
  | n + 1 => fun a =>
    if a.isComplete then some (true, a)
    else
      let a0 := a.pushFrame
      let vid := a0.nextUnassignedVar
      let dom := a0.getCurrentDomain vid
      tryVals m (forwardCheckingStep2 m n) vid dom.enumVals a0

/-- A whole solve: `a.Reset2(csp.domains2); csp.ForwardCheckingStep2(a)`. -/
def solve2 (m : CSP) (fuel : Nat) : Option (Bool × Assignment) :=
  forwardCheckingStep2 m fuel (Assignment.reset2 m.domains2)

end FCheck

namespace FCheck

/-! Small list helpers shared by several theorems. -/

theorem getD_replicate_self (n i : Nat) (x : Int) :
    (List.replicate n x).getD i x = x := by
  rw [List.getD_eq_getElem?_getD, List.getElem?_replicate]
  by_cases h : i < n <;> simp [h]

/-- Reading an index other than the one written is unchanged. -/
theorem getD_set_ne {l : List Int} {i j : Nat} (h : i ≠ j) (x d : Int) :
    (l.set i x).getD j d = l.getD j d := by
  rw [List.getD_eq_getElem?_getD, List.getD_eq_getElem?_getD, List.getElem?_set_ne h]

/-- Writing back the value `getD` reads is the identity (out-of-range
writes are no-ops). -/
theorem set_getD_self (l : List Int) (i : Nat) (d : Int) :
    l.set i (l.getD i d) = l := by
  by_cases h : i < l.length
  · apply List.ext_getElem?
    intro n
    by_cases hn : i = n
    · subst hn
      rw [List.getElem?_set_self h, List.getD_eq_getElem?_getD,
        List.getElem?_eq_getElem h]
      simp
    · rw [List.getElem?_set_ne hn]
  · exact List.set_eq_of_length_le (Nat.le_of_not_lt h)

end FCheck

namespace FCheck

/-! Evidence states for the propagation claims.  Each is a well-formed
mid-search state: the frame that `ForwardCheckingStep2` pushes at the
start of a level is present, the instantiated variables' values are in
their (singleton) domains, and the target variable is unassigned. -/

/-- A level state for `CombinedEqualityConstraint2(v0=0, v1=1, v2=2, v3=3)`:
`v1 = 5`, `v2 = 3`, `v3 = 1` instantiated, `v0` unassigned with current
domain `{5, 7}`, an empty frame pushed. -/
def combinedBugState : Assignment :=
  { assigned_var_count := 3
    inst_vars := [UNASSIGNED, 5, 3, 1]
    current_domains :=
      [{ type := DomainType.Values, values := [5, 7] },
       { type := DomainType.Values, values := [5] },
       { type := DomainType.Values, values := [3] },
       { type := DomainType.Values, values := [1] }]
    saved_domains := [{ step := 0, domains := [] }] }

/-- C2: the claim says that with `v1, v2, v3` instantiated and `v0` not,
`AplyArcConsistency` narrows `v0`'s domain to `intersect(v1 + v2 - v3)`.
On `combinedBugState` that value is `5 + 3 - 1 = 7` and `7` is in the
domain, yet the code narrows to `{5}` (the source reads `inst_vars[v2]`
into `v3_val`, so it intersects with `v1 + v2 - v2 = v1` instead): the
claim is the intended behaviour and the code contradicts it. -/
theorem fc_C2_combined_propagation_reads_v2_for_v3 :
    instValue combinedBugState.inst_vars 1 + instValue combinedBugState.inst_vars 2
        - instValue combinedBugState.inst_vars 3 = 7 ∧
    (7 : Int) ∈ (combinedBugState.getCurrentDomain 0).values ∧
    (((Constraint2.combinedEquality 0 1 2 3).aplyArcConsistency
        combinedBugState).2.getCurrentDomain 0).values = [5] ∧
    (7 : Int) ∉ (((Constraint2.combinedEquality 0 1 2 3).aplyArcConsistency
        combinedBugState).2.getCurrentDomain 0).values := by
  decide

/-- A level state for `OpConstraint2(v0=0, v1=1, NotEqual, offset=0)`:
`v1 = 1` instantiated, `v0` unassigned with `Values`-form current domain
`{0, 1, 2}`, an empty frame pushed. -/
def opNotEqualBugState : Assignment :=
  { assigned_var_count := 1
    inst_vars := [UNASSIGNED, 1]
    current_domains :=
      [{ type := DomainType.Values, values := [0, 1, 2] },
       { type := DomainType.Values, values := [1] }]
    saved_domains := [{ step := 0, domains := [] }] }

/-- C3: the claim says a NotEqual propagation leaves the unassigned
side's `Values`-form domain equal to the previous domain with the single
value `oth + side_offset = 1` removed, i.e. `{0, 2}`.  The code instead
pushes `oth_val` itself once per surviving element (the `Values`/not-Equal
branch of `DoCheck` pushes `oth_val` where the source's own `Ranges`
branch pushes the surviving `val`), producing `[1, 1]`: the excluded
value is now the only member and the kept values `0` and `2` are gone. -/
theorem fc_C3_notequal_values_branch_pushes_excluded_value :
    (((Constraint2.op 0 1 COp.NotEqual 0).aplyArcConsistency
        opNotEqualBugState).2.getCurrentDomain 0).values = [1, 1] ∧
    (1 : Int) ∈ (((Constraint2.op 0 1 COp.NotEqual 0).aplyArcConsistency
        opNotEqualBugState).2.getCurrentDomain 0).values ∧
    (0 : Int) ∉ (((Constraint2.op 0 1 COp.NotEqual 0).aplyArcConsistency
        opNotEqualBugState).2.getCurrentDomain 0).values ∧
    ((Constraint2.op 0 1 COp.NotEqual 0).aplyArcConsistency
        opNotEqualBugState).1 = true := by
  decide

/-- The model whose very first search step violates the C4 invariant:
`v0 ∈ {0, 2}`, `v1 ∈ {1}`, constraint `v0 ≠ v1`. -/
def c4Model : CSP :=
  { domains2 :=
      [{ type := DomainType.Values, values := [0, 2] },
       { type := DomainType.Values, values := [1] }]
    constraints2 := [Constraint2.op 0 1 COp.NotEqual 0] }

/-- The state of the first level of the search on `c4Model` right after
the engine pushes its frame and assigns the first candidate `v0 := 0`,
followed by the propagation pass of that level. -/
def c4PropagationStep : Bool × Assignment :=
  propagateAll (c4Model.linkedConstraints 0)
    (((Assignment.reset2 c4Model.domains2).pushFrame).assignVar 0 0)

/-- C4: the claim says no propagation step ever inserts into a variable's
current domain a value that was not in its initial domain (and that
domains stay non-empty subsets of the initial domains outside recovery
branches).  On `c4Model`, the first propagation pass of the search
returns true (no recovery is triggered) yet leaves `v1`'s current domain
holding the value `0`, which is not in `v1`'s initial domain `{1}`. -/
theorem fc_C4_propagation_inserts_value_outside_initial_domain :
    c4PropagationStep.1 = true ∧
    (0 : Int) ∈ (c4PropagationStep.2.getCurrentDomain 1).values ∧
    (0 : Int) ∉ ((c4Model.domains2.getD 1
        { type := DomainType.Values, values := [] }).values) := by
  decide

/-- A level state for `OpConstraint2(v0=0, v1=1, NotEqual, offset=0)`:
`v1 = 4` instantiated, `v0` unassigned with current domain `{2, 3}`,
an empty frame pushed. -/
def opNotMonotoneState : Assignment :=
  { assigned_var_count := 1
    inst_vars := [UNASSIGNED, 4]
    current_domains :=
      [{ type := DomainType.Values, values := [2, 3] },
       { type := DomainType.Values, values := [4] }]
    saved_domains := [{ step := 0, domains := [] }] }

/-- C7: the claim says every `AplyArcConsistency` call leaves each
domain, as a set of values, a subset of that domain immediately before
the call.  Here the call puts `4` into `v0`'s domain (the `Values`-form
not-Equal branch pushes `oth_val`), a value the domain did not contain
before the call, so the result is not a subset. -/
theorem fc_C7_propagation_not_narrowing :
    ((Constraint2.op 0 1 COp.NotEqual 0).aplyArcConsistency
        opNotMonotoneState).1 = true ∧
    (4 : Int) ∈ (((Constraint2.op 0 1 COp.NotEqual 0).aplyArcConsistency
        opNotMonotoneState).2.getCurrentDomain 0).values ∧
    (4 : Int) ∉ (opNotMonotoneState.getCurrentDomain 0).values := by
  decide

/-- C9: `OrRangeConstraint2::AplyArcConsistency` is `return true;` (its
body is disabled with `#if 0`): for every assignment state it returns
true and leaves the whole assignment — in particular every current
domain and the saved-domain stack — unchanged. -/
theorem fc_C9_orRange_propagation_noop (v0 v1 : VarId) (mn mx : Int) (a : Assignment) :
    (Constraint2.orRange v0 v1 mn mx).aplyArcConsistency a = (true, a) ∧
    ((Constraint2.orRange v0 v1 mn mx).aplyArcConsistency a).2.current_domains
      = a.current_domains ∧
    ((Constraint2.orRange v0 v1 mn mx).aplyArcConsistency a).2.saved_domains
      = a.saved_domains :=
  ⟨rfl, rfl, rfl⟩

/-- C10: immediately after `Reset2`, reading any variable (indeed any
index at all) through `GetInstVarValue` yields the reserved sentinel
`UNASSIGNED`, which is the fixed integer `-INT_MAX = -2147483647`, the
same for all variables. -/
theorem fc_C10_reset_reads_unassigned_sentinel (doms : List Domain) (vid : VarId) :
    (Assignment.reset2 doms).getInstVarValue vid = UNASSIGNED ∧
    UNASSIGNED = -2147483647 := by
  refine ⟨?_, rfl⟩
  show instValue (List.replicate doms.length UNASSIGNED) vid = UNASSIGNED
  exact getD_replicate_self doms.length vid UNASSIGNED

end FCheck

namespace FCheck

/-- C5 counterexample: with both sides instantiated (`v0 = 5`, `v1 = 3`)
and the operator value `SupEqual` (2 — a legal value of the underlying
`int`-backed enum, handled by the legacy `Constraint::Evaluate` but by no
case of `OpConstraint2::Evaluate`'s switch), the relation `v0 ≥ v1 + 0`
holds, yet `TryEvaluate` returns `Failed`, not `Passed`: the claim's
"Passed iff the relation holds" fails for the four comparison operators. -/
theorem fc_C5_counterexample :
    instValue [5, 3] 0 ≥ instValue [5, 3] 1 + 0 ∧
    (Constraint2.op 0 1 COp.SupEqual 0).tryEvaluate [5, 3] = Eval.Failed ∧
    Eval.Failed ≠ Eval.Passed := by
  decide

/-- C5 (amended): `OpConstraint2` implements only `=` (`Equal`) and `≠`
(`NotEqual`).  For those, when both sides are instantiated `TryEvaluate`
returns `Passed` iff `v0 op (v1 + offset)` holds and `Failed` otherwise;
for every other operator value (the four comparison operators are
commented out of `OpConstraint2`) it returns `Failed` whenever both sides
are instantiated; and whenever either side is uninstantiated it returns
`NA`. -/
theorem fc_C5_op_try_evaluate (v0 v1 : VarId) (o : COp) (offset : Int)
    (inst : List Int) :
    (instValue inst v0 ≠ UNASSIGNED → instValue inst v1 ≠ UNASSIGNED →
      (Constraint2.op v0 v1 o offset).tryEvaluate inst =
        (if o = COp.Equal then
          (if instValue inst v0 = instValue inst v1 + offset
            then Eval.Passed else Eval.Failed)
         else if o = COp.NotEqual then
          (if instValue inst v0 ≠ instValue inst v1 + offset
            then Eval.Passed else Eval.Failed)
         else Eval.Failed)) ∧
    ((instValue inst v0 = UNASSIGNED ∨ instValue inst v1 = UNASSIGNED) →
      (Constraint2.op v0 v1 o offset).tryEvaluate inst = Eval.NA) := by
  constructor
  · intro h0 h1
    show (if instValue inst v0 ≠ UNASSIGNED ∧ instValue inst v1 ≠ UNASSIGNED then
        (if (Constraint2.op v0 v1 o offset).evaluate inst
          then Eval.Passed else Eval.Failed)
      else Eval.NA) = _
    rw [if_pos ⟨h0, h1⟩]
    show (if ((if o = COp.Equal then
          decide (instValue inst v0 = instValue inst v1 + offset)
        else if o = COp.NotEqual then
          decide (instValue inst v0 ≠ instValue inst v1 + offset)
        else false) : Bool)
      then Eval.Passed else Eval.Failed) = _
    by_cases hE : o = COp.Equal
    · simp only [hE, if_pos rfl]
      by_cases hv : instValue inst v0 = instValue inst v1 + offset <;> simp [hv]
    · have hE2 : ¬(COp.NotEqual = COp.Equal) := by decide
      by_cases hN : o = COp.NotEqual
      · simp only [hN, if_neg hE2, if_pos rfl]
        by_cases hv : instValue inst v0 = instValue inst v1 + offset <;> simp [hv]
      · simp [hE, hN]
  · intro h
    show (if instValue inst v0 ≠ UNASSIGNED ∧ instValue inst v1 ≠ UNASSIGNED then
        (if (Constraint2.op v0 v1 o offset).evaluate inst
          then Eval.Passed else Eval.Failed)
      else Eval.NA) = _
    rw [if_neg]
    rcases h with h | h
    · exact fun hc => hc.1 h
    · exact fun hc => hc.2 h

/-- Closed instances of `fc_C5_op_try_evaluate`: `0 = (-2) + 2` gives
`Passed`, and an unassigned left side gives `NA`. -/
theorem fc_C5_op_try_evaluate_witness :
    (Constraint2.op 0 1 COp.Equal 2).tryEvaluate [0, -2] = Eval.Passed ∧
    (Constraint2.op 0 1 COp.Equal 2).tryEvaluate [UNASSIGNED, 5] = Eval.NA := by
  constructor
  · exact ((fc_C5_op_try_evaluate 0 1 COp.Equal 2 [0, -2]).1
      (by decide) (by decide)).trans (by decide)
  · exact (fc_C5_op_try_evaluate 0 1 COp.Equal 2 [UNASSIGNED, 5]).2
      (Or.inl (by decide))

/-- The number of values a domain encodes (its `size` in the spec's
sense): the list length in `Values` form, the total interval width in
`Ranges` form. -/
def Domain.size (d : Domain) : Nat :=
  match d.type with
  | DomainType.Values => d.values.length
  | DomainType.Ranges => ((rangePairs d.values).map (fun p => (p.2 - p.1).toNat)).sum

/-- Spec-side ordering for C6, following the spec's words ("a permutation
of `[0,N)` sorted by ascending initial domain size (with VarId as
tie-breaker)"): `x` comes no later than `y` when `x`'s initial domain is
smaller, or the sizes tie and `x ≤ y`.  This definition exists only to
compare the specified `assign_order` with the source's
`NextUnassignedVar`, which has no such ordering. -/
def specOrderLE (m : CSP) (x y : VarId) : Bool :=
  decide ((m.domains2.getD x { type := DomainType.Values, values := [] }).size
      < (m.domains2.getD y { type := DomainType.Values, values := [] }).size) ||
  (decide ((m.domains2.getD x { type := DomainType.Values, values := [] }).size
      = (m.domains2.getD y { type := DomainType.Values, values := [] }).size) &&
   decide (x ≤ y))

/-- Insertion step of the spec-side sort for C6. -/
def specOrderInsert (m : CSP) (x : VarId) : List VarId → List VarId
  | [] => [x]
  | y :: t => if specOrderLE m x y then x :: y :: t else y :: specOrderInsert m x t

/-- Spec-side `assign_order` for C6: `[0, N)` insertion-sorted by
ascending initial domain size with VarId as tie-breaker. -/
def specAssignOrder (m : CSP) : List VarId :=
  (List.range m.domains2.length).foldr (fun v acc => specOrderInsert m v acc) []

/-- A two-variable model on which the claimed ordering and the code
disagree: `v0`'s initial domain has two values, `v1`'s has one, so the
spec's `assign_order` is `[1, 0]`. -/
def c6Model : CSP :=
  { domains2 :=
      [{ type := DomainType.Values, values := [0, 1] },
       { type := DomainType.Values, values := [5] }]
    constraints2 := [] }

/-- C6 counterexample: on the freshly reset assignment for `c6Model`
(`assigned_var_count = 0`), the claim says `NextUnassignedVar` returns
`assign_order[0] = 1` (the variable with the smallest initial domain);
the source's `NextUnassignedVar` — a plain ascending scan for the first
`UNASSIGNED` entry, with no `assign_order` anywhere in the code — returns
`0`. -/
theorem fc_C6_counterexample :
    specAssignOrder c6Model = [1, 0] ∧
    (Assignment.reset2 c6Model.domains2).nextUnassignedVar ≠
      (specAssignOrder c6Model).getD
        (Assignment.reset2 c6Model.domains2).assigned_var_count.toNat 0 := by
  decide

/-- C6 (amended): `NextUnassignedVar` returns the smallest `VarId` whose
instantiation is `UNASSIGNED` (or `inst_vars.size()` when there is none);
no `assign_order` is computed at reset, so variables are selected in
ascending `VarId` order, not by initial domain size. -/
theorem fc_C6_next_unassigned_is_least (a : Assignment) :
    a.nextUnassignedVar ≤ a.inst_vars.length ∧
    (∀ j, j < a.nextUnassignedVar → instValue a.inst_vars j ≠ UNASSIGNED) ∧
    (a.nextUnassignedVar < a.inst_vars.length →
      instValue a.inst_vars a.nextUnassignedVar = UNASSIGNED) := by
  refine ⟨List.findIdx_le_length _, ?_, ?_⟩
  · intro j hj
    have hjl : j < a.inst_vars.length :=
      Nat.lt_of_lt_of_le hj (List.findIdx_le_length _)
    have hfalse := List.not_of_lt_findIdx hj
    have : instValue a.inst_vars j = a.inst_vars.get ⟨j, hjl⟩ := by
      show a.inst_vars.getD j UNASSIGNED = _
      rw [List.getD_eq_getElem?_getD, List.getElem?_eq_getElem hjl]
      rfl
    rw [this]
    intro hcontra
    rw [List.get_eq_getElem] at hcontra
    rw [hcontra] at hfalse
    simp at hfalse
  · intro hlt
    have hlt' : a.inst_vars.findIdx (fun v => v == UNASSIGNED) < a.inst_vars.length := hlt
    have hp := @List.findIdx_getElem _ (fun v => v == UNASSIGNED) a.inst_vars hlt'
    have hiv : instValue a.inst_vars a.nextUnassignedVar
        = a.inst_vars.get ⟨a.nextUnassignedVar, hlt⟩ := by
      show a.inst_vars.getD _ UNASSIGNED = _
      rw [List.getD_eq_getElem?_getD, List.getElem?_eq_getElem hlt]
      rfl
    rw [hiv, List.get_eq_getElem]
    exact eq_of_beq hp

/-- Closed instance of `fc_C6_next_unassigned_is_least` on the state
whose first variable is assigned and second is not. -/
theorem fc_C6_next_unassigned_is_least_witness :
    instValue ([5, UNASSIGNED] : List Int)
      (Assignment.nextUnassignedVar
        { assigned_var_count := 1, inst_vars := [5, UNASSIGNED],
          current_domains := [], saved_domains := [] }) = UNASSIGNED ∧
    (0 : Int) ≠ UNASSIGNED := by
  constructor
  · exact (fc_C6_next_unassigned_is_least
      { assigned_var_count := 1, inst_vars := [5, UNASSIGNED],
        current_domains := [], saved_domains := [] }).2.2 (by decide)
  · decide

end FCheck

namespace FCheck

/-! Machinery for the two search-level theorems (C1 soundness, C8
post-exhaustion state).  `base` always denotes the assignment at entry to
a `ForwardCheckingStep2` level, before the frame push. -/

/-- Two assignments with equal fields are equal. -/
theorem Assignment.eq_of_fields {x y : Assignment}
    (h1 : x.assigned_var_count = y.assigned_var_count)
    (h2 : x.inst_vars = y.inst_vars)
    (h3 : x.current_domains = y.current_domains)
    (h4 : x.saved_domains = y.saved_domains) : x = y := by
  cases x
  cases y
  simp_all

/-- The snapshot `FindOrAddSavedDomain` would take of `vid`'s domain in
state `base`. -/
def snapshotOf (base : Assignment) (vid : VarId) : SavedDomain :=
  { var_id := vid
    type := (base.getCurrentDomain vid).type
    values := (base.getCurrentDomain vid).values }

/-- The state of one search level relative to its entry state `base`:
the stack is `base`'s stack with one frame `fr` on top, every entry of
`fr` is the snapshot of `base`'s domain for its variable, and every
variable without an entry in `fr` still has its `base` domain. -/
def FrameInv (base : Assignment) (fr : SavedDomainStep) (s : Assignment) : Prop :=
  s.saved_domains = fr :: base.saved_domains ∧
  s.current_domains.length = base.current_domains.length ∧
  (∀ sd ∈ fr.domains, sd = snapshotOf base sd.var_id) ∧
  (∀ j : Nat, (∀ sd ∈ fr.domains, sd.var_id ≠ j) →
    s.current_domains[j]? = base.current_domains[j]?)

/-- `FrameInv` for some frame. -/
def StepInv (base s : Assignment) : Prop := ∃ fr, FrameInv base fr s

/-- The state between candidate values of one level: `FrameInv` holds
and, domains having been restored, every mutable component other than
the frame equals its entry value. -/
def LoopInv (base s : Assignment) : Prop :=
  StepInv base s ∧
  s.current_domains = base.current_domains ∧
  s.inst_vars = base.inst_vars ∧
  s.assigned_var_count = base.assigned_var_count

theorem stepInv_of_components {base s s' : Assignment} (h : StepInv base s)
    (hc : s'.current_domains = s.current_domains)
    (hs : s'.saved_domains = s.saved_domains) : StepInv base s' := by
  obtain ⟨fr, h1, h2, h3, h4⟩ := h
  exact ⟨fr, by rw [hs, h1], by rw [hc, h2], h3, fun j hj => by rw [hc]; exact h4 j hj⟩

/-- The value `NextUnassignedVar` points at reads as `UNASSIGNED`
(either it found an `UNASSIGNED` slot, or it returned the length and the
default kicks in). -/
theorem nextUnassigned_getD (a : Assignment) :
    instValue a.inst_vars a.nextUnassignedVar = UNASSIGNED := by
  simp only [instValue, Assignment.nextUnassignedVar]
  by_cases h : a.inst_vars.findIdx (fun v => v == UNASSIGNED) < a.inst_vars.length
  · have hp := @List.findIdx_getElem _ (fun v => v == UNASSIGNED) a.inst_vars h
    rw [List.getD_eq_getElem?_getD, List.getElem?_eq_getElem h]
    exact eq_of_beq hp
  · rw [List.getD_eq_getElem?_getD, List.getElem?_eq_none (Nat.le_of_not_lt h)]
    rfl

/-- Assigning an unassigned slot and unassigning it again is the
identity. -/
theorem unAssign_assignVar (s : Assignment) (vid : VarId) (val : Int)
    (h : instValue s.inst_vars vid = UNASSIGNED) :
    (s.assignVar vid val).unAssignVar vid = s := by
  apply Assignment.eq_of_fields
  · show s.assigned_var_count + 1 - 1 = s.assigned_var_count
    omega
  · show (s.inst_vars.set vid val).set vid UNASSIGNED = s.inst_vars
    rw [List.set_set]
    have : UNASSIGNED = s.inst_vars.getD vid UNASSIGNED := h.symm
    rw [this]
    exact set_getD_self s.inst_vars vid UNASSIGNED
  · rfl
  · rfl

/-- The entry `FindOrAddSavedDomain` pushes when it has to add one. -/
def savedEntry (vid : VarId) (dom : Domain) : SavedDomain :=
  { var_id := vid, type := dom.type, values := dom.values }

/-- Unfolding of `FindOrAddSavedDomain` when the stack is non-empty. -/
theorem findOrAdd_eq (s : Assignment) (fr : SavedDomainStep)
    (rest : List SavedDomainStep) (vid : VarId) (dom : Domain)
    (hsv : s.saved_domains = fr :: rest) :
    s.findOrAddSavedDomain vid dom =
      (match fr.domains.find? (fun sd => sd.var_id == vid) with
       | some sd => (s, sd)
       | none =>
         ({ s with saved_domains :=
              { fr with domains := fr.domains ++ [savedEntry vid dom] } :: rest },
          savedEntry vid dom)) := by
  rw [Assignment.findOrAddSavedDomain, hsv]
  rfl

/-- What `FindOrAddSavedDomain` does under `FrameInv`: the state keeps
`FrameInv` for a frame now containing an entry for `vid`, the returned
`SavedDomain` is exactly `base`'s snapshot for `vid`, and nothing but the
stack changes. -/
theorem findOrAdd_spec (base : Assignment) (fr : SavedDomainStep) (s : Assignment)
    (vid : VarId) (h : FrameInv base fr s) :
    ∃ fr2 : SavedDomainStep,
      FrameInv base fr2 (s.findOrAddSavedDomain vid (s.getCurrentDomain vid)).1 ∧
      (∃ sd ∈ fr2.domains, sd.var_id = vid) ∧
      (s.findOrAddSavedDomain vid (s.getCurrentDomain vid)).2 = snapshotOf base vid ∧
      (s.findOrAddSavedDomain vid (s.getCurrentDomain vid)).1.current_domains
        = s.current_domains ∧
      (s.findOrAddSavedDomain vid (s.getCurrentDomain vid)).1.inst_vars = s.inst_vars ∧
      (s.findOrAddSavedDomain vid (s.getCurrentDomain vid)).1.assigned_var_count
        = s.assigned_var_count := by
  obtain ⟨hsv, hlen, hsnap, hframe⟩ := h
  rw [findOrAdd_eq s fr base.saved_domains vid (s.getCurrentDomain vid) hsv]
  cases hfind : fr.domains.find? (fun sd => sd.var_id == vid) with
  | some sd =>
    have hmem : sd ∈ fr.domains := List.mem_of_find?_eq_some hfind
    have hb := List.find?_some hfind
    have hvid : sd.var_id = vid := by
      simp only [beq_iff_eq] at hb
      exact hb
    refine ⟨fr, ⟨hsv, hlen, hsnap, hframe⟩, ⟨sd, hmem, hvid⟩, ?_, rfl, rfl, rfl⟩
    show sd = snapshotOf base vid
    rw [hsnap sd hmem, hvid]
  | none =>
    have hnone : ∀ sd ∈ fr.domains, sd.var_id ≠ vid := by
      intro sd hm
      have := List.find?_eq_none.mp hfind sd hm
      intro hc
      exact this (by simp [hc])
    have hcur : s.current_domains[vid]? = base.current_domains[vid]? := hframe vid hnone
    have hdomeq : s.getCurrentDomain vid = base.getCurrentDomain vid := by
      show s.current_domains.getD vid _ = base.current_domains.getD vid _
      rw [List.getD_eq_getElem?_getD, List.getD_eq_getElem?_getD, hcur]
    have hentry : savedEntry vid (s.getCurrentDomain vid) = snapshotOf base vid := by
      rw [savedEntry, hdomeq]
      rfl
    refine ⟨{ fr with domains :=
        fr.domains ++ [savedEntry vid (s.getCurrentDomain vid)] },
      ⟨rfl, hlen, ?_, ?_⟩, ?_, hentry, rfl, rfl, rfl⟩
    · intro sd hm
      rcases List.mem_append.mp hm with hm | hm
      · exact hsnap sd hm
      · have hsd : sd = savedEntry vid (s.getCurrentDomain vid) := by simpa using hm
        rw [hsd, hentry]
        rfl
    · intro j hj
      refine hframe j ?_
      intro sd hm
      exact hj sd (List.mem_append.mpr (Or.inl hm))
    · refine ⟨savedEntry vid (s.getCurrentDomain vid),
        List.mem_append.mpr (Or.inr (by simp)), rfl⟩

end FCheck

namespace FCheck

/-- Both branches of `narrowWith` return the same state. -/
theorem narrowWith_snd (a : Assignment) (v0 : VarId)
    (mk : DomainType → List Int → Domain) :
    (narrowWith a v0 mk).2 =
      { (a.findOrAddSavedDomain v0 (a.getCurrentDomain v0)).1 with
        current_domains :=
          (a.findOrAddSavedDomain v0 (a.getCurrentDomain v0)).1.current_domains.set v0
            (mk (a.getCurrentDomain v0).type
              (a.findOrAddSavedDomain v0 (a.getCurrentDomain v0)).2.values) } := by
  simp only [narrowWith]
  split <;> rfl

/-- A `narrowWith` call preserves the frame invariant, touches neither
`inst_vars` nor the counter, and every resulting domain is either an old
one or the one `mk` built from the snapshot of `base`'s domain. -/
theorem narrowWith_frame (base s : Assignment) (v0 : VarId)
    (mk : DomainType → List Int → Domain) (h : StepInv base s) :
    StepInv base (narrowWith s v0 mk).2 ∧
    (narrowWith s v0 mk).2.inst_vars = s.inst_vars ∧
    (narrowWith s v0 mk).2.assigned_var_count = s.assigned_var_count ∧
    (∀ d ∈ (narrowWith s v0 mk).2.current_domains,
      d ∈ s.current_domains ∨
        d = mk (s.getCurrentDomain v0).type (snapshotOf base v0).values) := by
  obtain ⟨fr, hfr⟩ := h
  obtain ⟨fr2, hfr2, hvidmem, hsav, hcur, hinst, hcount⟩ := findOrAdd_spec base fr s v0 hfr
  rw [narrowWith_snd]
  obtain ⟨h2sv, h2len, h2snap, h2frame⟩ := hfr2
  refine ⟨⟨fr2, ?_, ?_, h2snap, ?_⟩, hinst, hcount, ?_⟩
  · exact h2sv
  · rw [List.length_set]
    exact h2len
  · intro j hj
    obtain ⟨sdv, hsdv, hsdvid⟩ := hvidmem
    have hne : v0 ≠ j := by
      have := hj sdv hsdv
      rw [hsdvid] at this
      exact this
    show ((s.findOrAddSavedDomain v0 (s.getCurrentDomain v0)).1.current_domains.set v0 _)[j]?
      = base.current_domains[j]?
    rw [List.getElem?_set_ne hne]
    exact h2frame j hj
  · intro d hd
    rcases List.mem_or_eq_of_mem_set hd with hd | hd
    · rw [hcur] at hd
      exact Or.inl hd
    · rw [hsav] at hd
      exact Or.inr hd

/-- One `AplyArcConsistency` call preserves the frame invariant and the
instantiation state. -/
theorem aplyArc_frame (c : Constraint2) (base s : Assignment) (h : StepInv base s) :
    StepInv base (c.aplyArcConsistency s).2 ∧
    (c.aplyArcConsistency s).2.inst_vars = s.inst_vars ∧
    (c.aplyArcConsistency s).2.assigned_var_count = s.assigned_var_count := by
  cases c with
  | op v0 v1 o offset =>
    simp only [Constraint2.aplyArcConsistency]
    split
    · simp only [opDoCheck]
      refine ⟨?_, ?_, ?_⟩
      · exact (narrowWith_frame base s v0 _ h).1
      · exact (narrowWith_frame base s v0 _ h).2.1
      · exact (narrowWith_frame base s v0 _ h).2.2.1
    · split
      · simp only [opDoCheck]
        refine ⟨?_, ?_, ?_⟩
        · exact (narrowWith_frame base s v1 _ h).1
        · exact (narrowWith_frame base s v1 _ h).2.1
        · exact (narrowWith_frame base s v1 _ h).2.2.1
      · exact ⟨h, rfl, rfl⟩
  | equality v0 v1 =>
    simp only [Constraint2.aplyArcConsistency]
    split
    · simp only [eqDoCheck]
      refine ⟨?_, ?_, ?_⟩
      · exact (narrowWith_frame base s v0 _ h).1
      · exact (narrowWith_frame base s v0 _ h).2.1
      · exact (narrowWith_frame base s v0 _ h).2.2.1
    · split
      · simp only [eqDoCheck]
        refine ⟨?_, ?_, ?_⟩
        · exact (narrowWith_frame base s v1 _ h).1
        · exact (narrowWith_frame base s v1 _ h).2.1
        · exact (narrowWith_frame base s v1 _ h).2.2.1
      · exact ⟨h, rfl, rfl⟩
  | orEquality v0 v1 v2 =>
    simp only [Constraint2.aplyArcConsistency]
    split
    · refine ⟨?_, ?_, ?_⟩
      · exact (narrowWith_frame base s v0 _ h).1
      · exact (narrowWith_frame base s v0 _ h).2.1
      · exact (narrowWith_frame base s v0 _ h).2.2.1
    · exact ⟨h, rfl, rfl⟩
  | combinedEquality v0 v1 v2 v3 =>
    simp only [Constraint2.aplyArcConsistency]
    split
    · refine ⟨?_, ?_, ?_⟩
      · exact (narrowWith_frame base s v0 _ h).1
      · exact (narrowWith_frame base s v0 _ h).2.1
      · exact (narrowWith_frame base s v0 _ h).2.2.1
    · exact ⟨h, rfl, rfl⟩
  | orRange v0 v1 mn mx =>
    exact ⟨h, rfl, rfl⟩

/-- The propagation loop preserves the frame invariant and the
instantiation state. -/
theorem propagateAll_frame (cs : List Constraint2) :
    ∀ (base s : Assignment), StepInv base s →
      StepInv base (propagateAll cs s).2 ∧
      (propagateAll cs s).2.inst_vars = s.inst_vars ∧
      (propagateAll cs s).2.assigned_var_count = s.assigned_var_count := by
  induction cs with
  | nil => intro base s h; exact ⟨h, rfl, rfl⟩
  | cons c rest ih =>
    intro base s h
    have h1 := aplyArc_frame c base s h
    rcases hr : c.aplyArcConsistency s with ⟨b, a1⟩
    rw [hr] at h1
    cases b with
    | true =>
      have h2 := ih base a1 h1.1
      simp only [propagateAll, hr]
      exact ⟨h2.1, h2.2.1.trans h1.2.1, h2.2.2.trans h1.2.2⟩
    | false =>
      simp only [propagateAll, hr]
      exact h1

end FCheck

namespace FCheck

/-- Unfolding of `RestoreSavedDomainStep` when the stack is non-empty. -/
theorem restore_eq_cons (s : Assignment) (fr : SavedDomainStep)
    (rest : List SavedDomainStep) (hsv : s.saved_domains = fr :: rest) :
    s.restoreSavedDomainStep =
      { s with current_domains :=
          (fr.domains.foldl
            (fun cur sd => cur.set sd.var_id { type := sd.type, values := sd.values })
            s.current_domains) } := by
  rw [Assignment.restoreSavedDomainStep, hsv]

/-- Pointwise description of the restoration fold: positions covered by
an entry get that entry's (shared) payload, others are untouched. -/
theorem restoreFold_getElem? (f : Nat → Domain) (ds : List SavedDomain) :
    ∀ (cur : List Domain),
      (∀ sd ∈ ds, ({ type := sd.type, values := sd.values } : Domain) = f sd.var_id) →
      ∀ j : Nat,
        (ds.foldl (fun cur sd =>
            cur.set sd.var_id { type := sd.type, values := sd.values }) cur)[j]? =
          if ∃ sd ∈ ds, sd.var_id = j then
            (if j < cur.length then some (f j) else none)
          else cur[j]? := by
  induction ds with
  | nil =>
    intro cur hp j
    simp
  | cons sd t ih =>
    intro cur hp j
    have hlen : (cur.set sd.var_id
        ({ type := sd.type, values := sd.values } : Domain)).length = cur.length :=
      List.length_set cur _ _
    have ihj := ih (cur.set sd.var_id { type := sd.type, values := sd.values })
      (fun x hx => hp x (List.mem_cons_of_mem _ hx)) j
    rw [List.foldl_cons, ihj, hlen]
    by_cases hex : ∃ x ∈ t, x.var_id = j
    · obtain ⟨x, hx, hxe⟩ := hex
      have hex2 : ∃ y ∈ sd :: t, y.var_id = j := ⟨x, List.mem_cons_of_mem _ hx, hxe⟩
      rw [if_pos ⟨x, hx, hxe⟩, if_pos hex2]
    · rw [if_neg hex]
      by_cases hj : sd.var_id = j
      · have hex2 : ∃ y ∈ sd :: t, y.var_id = j := ⟨sd, List.mem_cons_self _ _, hj⟩
        rw [if_pos hex2, hj, List.getElem?_set, if_pos rfl]
        have hps : ({ type := sd.type, values := sd.values } : Domain) = f j := by
          rw [hp sd (List.mem_cons_self _ _), hj]
        rw [hps]
      · have hex2 : ¬ ∃ y ∈ sd :: t, y.var_id = j := by
          rintro ⟨x, hx, hxe⟩
          rcases List.mem_cons.mp hx with hx | hx
          · exact hj (hx ▸ hxe)
          · exact hex ⟨x, hx, hxe⟩
        rw [if_neg hex2]
        exact List.getElem?_set_ne hj

/-- Under `FrameInv`, restoring the saved step rewinds the current
domains exactly to `base`'s. -/
theorem restore_of_frameInv (base : Assignment) (fr : SavedDomainStep)
    (s : Assignment) (h : FrameInv base fr s) :
    s.restoreSavedDomainStep = { s with current_domains := base.current_domains } := by
  obtain ⟨hsv, hlen, hsnap, hframe⟩ := h
  rw [restore_eq_cons s fr base.saved_domains hsv]
  have hfold : fr.domains.foldl
      (fun cur sd => cur.set sd.var_id { type := sd.type, values := sd.values })
      s.current_domains = base.current_domains := by
    apply List.ext_getElem?
    intro j
    have hpayload : ∀ sd ∈ fr.domains,
        ({ type := sd.type, values := sd.values } : Domain)
          = base.getCurrentDomain sd.var_id := by
      intro sd hm
      rw [hsnap sd hm]
      rfl
    rw [restoreFold_getElem? (fun j => base.getCurrentDomain j) fr.domains
      s.current_domains hpayload j]
    by_cases hex : ∃ sd ∈ fr.domains, sd.var_id = j
    · rw [if_pos hex]
      by_cases hjl : j < s.current_domains.length
      · rw [if_pos hjl]
        have hjb : j < base.current_domains.length := hlen ▸ hjl
        rw [List.getElem?_eq_getElem hjb]
        show some (base.current_domains.getD j _) = _
        rw [List.getD_eq_getElem?_getD, List.getElem?_eq_getElem hjb]
        rfl
      · rw [if_neg hjl]
        have hjb : ¬ j < base.current_domains.length := by
          rw [← hlen]
          exact hjl
        rw [List.getElem?_eq_none (Nat.le_of_not_lt hjb)]
    · rw [if_neg hex]
      apply hframe
      intro sd hm hc
      exact hex ⟨sd, hm, hc⟩
  rw [hfold]

/-- Failing a candidate after propagation — unassign, then restore —
lands back exactly on the loop state for the next candidate. -/
theorem loopInv_after_fail (base : Assignment) (vid : VarId) (val : Int)
    (a2 : Assignment)
    (hvidun : instValue base.inst_vars vid = UNASSIGNED)
    (hst : StepInv base a2)
    (hinst : a2.inst_vars = base.inst_vars.set vid val)
    (hcount : a2.assigned_var_count = base.assigned_var_count + 1) :
    LoopInv base ((a2.unAssignVar vid).restoreSavedDomainStep) ∧
    (a2.unAssignVar vid).restoreSavedDomainStep
      = { a2 with
          inst_vars := base.inst_vars
          assigned_var_count := base.assigned_var_count
          current_domains := base.current_domains } := by
  obtain ⟨fr, hfr⟩ := hst
  have hfr' : FrameInv base fr (a2.unAssignVar vid) :=
    ⟨hfr.1, hfr.2.1, hfr.2.2.1, hfr.2.2.2⟩
  have hres := restore_of_frameInv base fr (a2.unAssignVar vid) hfr'
  have hinstr : (a2.unAssignVar vid).inst_vars = base.inst_vars := by
    show a2.inst_vars.set vid UNASSIGNED = base.inst_vars
    rw [hinst, List.set_set]
    have : UNASSIGNED = base.inst_vars.getD vid UNASSIGNED := hvidun.symm
    rw [this]
    exact set_getD_self base.inst_vars vid UNASSIGNED
  have hcr : (a2.unAssignVar vid).assigned_var_count = base.assigned_var_count := by
    show a2.assigned_var_count - 1 = base.assigned_var_count
    omega
  constructor
  · rw [hres]
    refine ⟨⟨fr, hfr.1, rfl, hfr.2.2.1, fun j hj => rfl⟩, rfl, hinstr, hcr⟩
  · rw [hres]
    apply Assignment.eq_of_fields
    · exact hcr
    · exact hinstr
    · rfl
    · rfl

end FCheck

namespace FCheck

/-! Case-split equations for `tryVals` and `lambdaStep`. -/

theorem tryVals_cons_eq (m : CSP) (next : Assignment → Option (Bool × Assignment))
    (vid : VarId) (v : Int) (vs : List Int) (a : Assignment) :
    tryVals m next vid (v :: vs) a =
      (match lambdaStep m next vid a v with
       | none => none
       | some (true, a1) => some (true, a1)
       | some (false, a1) => tryVals m next vid vs a1) := rfl

theorem lambdaStep_validate_false (m : CSP)
    (next : Assignment → Option (Bool × Assignment)) (vid : VarId)
    (a : Assignment) (val : Int)
    (hval : validateConstraints2 (m.linkedConstraints vid)
      (a.assignVar vid val).inst_vars = false) :
    lambdaStep m next vid a val = some (false, (a.assignVar vid val).unAssignVar vid) := by
  simp [lambdaStep, hval]

theorem lambdaStep_propagate_false (m : CSP)
    (next : Assignment → Option (Bool × Assignment)) (vid : VarId)
    (a : Assignment) (val : Int) (a2 : Assignment)
    (hval : validateConstraints2 (m.linkedConstraints vid)
      (a.assignVar vid val).inst_vars = true)
    (hprop : propagateAll (m.linkedConstraints vid) (a.assignVar vid val) = (false, a2)) :
    lambdaStep m next vid a val
      = some (false, (a2.unAssignVar vid).restoreSavedDomainStep) := by
  simp [lambdaStep, hval, hprop]

theorem lambdaStep_propagate_true (m : CSP)
    (next : Assignment → Option (Bool × Assignment)) (vid : VarId)
    (a : Assignment) (val : Int) (a2 : Assignment)
    (hval : validateConstraints2 (m.linkedConstraints vid)
      (a.assignVar vid val).inst_vars = true)
    (hprop : propagateAll (m.linkedConstraints vid) (a.assignVar vid val) = (true, a2)) :
    lambdaStep m next vid a val =
      (match next a2 with
       | none => none
       | some (true, a3) => some (true, a3)
       | some (false, a3) => some (false, (a3.unAssignVar vid).restoreSavedDomainStep)) := by
  simp [lambdaStep, hval, hprop]

/-- If the recursive call restores its argument exactly on failure, the
whole candidate loop restores the level's entry state exactly on
failure. -/
theorem tryVals_false (m : CSP) (next : Assignment → Option (Bool × Assignment))
    (vid : VarId)
    (hnext : ∀ x r, next x = some (false, r) → r = x) :
    ∀ (vals : List Int) (base s : Assignment),
      LoopInv base s →
      instValue base.inst_vars vid = UNASSIGNED →
      ∀ r, tryVals m next vid vals s = some (false, r) → r = base := by
  intro vals
  induction vals with
  | nil =>
    intro base s hl hun r htv
    obtain ⟨⟨fr, hfr⟩, hcur, hinst, hcount⟩ := hl
    simp only [tryVals, Option.some.injEq, Prod.mk.injEq, true_and] at htv
    rw [← htv]
    apply Assignment.eq_of_fields
    · exact hcount
    · exact hinst
    · exact hcur
    · show s.saved_domains.tail = base.saved_domains
      rw [hfr.1]
      rfl
  | cons v vs ih =>
    intro base s hl hun r htv
    have hsun : instValue s.inst_vars vid = UNASSIGNED := by
      rw [hl.2.2.1]
      exact hun
    rw [tryVals_cons_eq] at htv
    cases hval : validateConstraints2 (m.linkedConstraints vid)
        ((s.assignVar vid v).inst_vars) with
    | false =>
      rw [lambdaStep_validate_false m next vid s v hval] at htv
      rw [unAssign_assignVar s vid v hsun] at htv
      exact ih base s hl hun r htv
    | true =>
      have hst1 : StepInv base (s.assignVar vid v) := by
        obtain ⟨fr, hfr⟩ := hl.1
        exact ⟨fr, hfr.1, hfr.2.1, hfr.2.2.1, hfr.2.2.2⟩
      rcases hprop : propagateAll (m.linkedConstraints vid) (s.assignVar vid v)
        with ⟨pb, a2⟩
      have hpf := propagateAll_frame (m.linkedConstraints vid) base (s.assignVar vid v) hst1
      rw [hprop] at hpf
      have ha2inst : a2.inst_vars = base.inst_vars.set vid v := by
        rw [hpf.2.1]
        show s.inst_vars.set vid v = base.inst_vars.set vid v
        rw [hl.2.2.1]
      have ha2count : a2.assigned_var_count = base.assigned_var_count + 1 := by
        rw [hpf.2.2]
        show s.assigned_var_count + 1 = base.assigned_var_count + 1
        rw [hl.2.2.2]
      cases pb with
      | false =>
        rw [lambdaStep_propagate_false m next vid s v a2 hval hprop] at htv
        have hli := loopInv_after_fail base vid v a2 hun hpf.1 ha2inst ha2count
        exact ih base _ hli.1 hun r htv
      | true =>
        rw [lambdaStep_propagate_true m next vid s v a2 hval hprop] at htv
        cases hn : next a2 with
        | none =>
          rw [hn] at htv
          exact absurd htv (by simp)
        | some p =>
          rcases p with ⟨pb2, a3⟩
          cases pb2 with
          | true =>
            rw [hn] at htv
            simp at htv
          | false =>
            rw [hn] at htv
            have ha3 : a3 = a2 := hnext a2 a3 hn
            rw [ha3] at htv
            have hli := loopInv_after_fail base vid v a2 hun hpf.1 ha2inst ha2count
            exact ih base _ hli.1 hun r htv

/-- On a `false` result, `ForwardCheckingStep2` hands back exactly the
assignment it was given: every assignment is undone and every saved
domain restored, and the frame pushed at each level is popped. -/
theorem forwardCheckingStep2_restores :
    ∀ (fuel : Nat) (m : CSP) (a r : Assignment),
      forwardCheckingStep2 m fuel a = some (false, r) → r = a := by
  intro fuel
  induction fuel with
  | zero =>
    intro m a r h
    exact absurd h (by simp [forwardCheckingStep2])
  | succ n ih =>
    intro m a r h
    simp only [forwardCheckingStep2] at h
    by_cases hc : a.isComplete
    · rw [if_pos hc] at h
      simp at h
    · rw [if_neg hc] at h
      have hloop : LoopInv a a.pushFrame := by
        refine ⟨⟨{ step := 0, domains := [] }, rfl, rfl, ?_, fun j hj => rfl⟩, rfl, rfl, rfl⟩
        intro sd hm
        exact absurd hm (List.not_mem_nil sd)
      have hun : instValue a.inst_vars (a.pushFrame).nextUnassignedVar = UNASSIGNED :=
        nextUnassigned_getD a.pushFrame
      exact tryVals_false m (forwardCheckingStep2 m n) (a.pushFrame).nextUnassignedVar
        (fun x rr hx => ih m x rr hx) _ a a.pushFrame hloop hun r h

/-- C8: if the top-level solve (a freshly `Reset2` assignment) returns
false, the assignment is back in its reset state: every variable reads
`UNASSIGNED` and the saved-domain stack is empty. -/
theorem fc_C8_unsat_post_state (m : CSP) (fuel : Nat) (r : Assignment)
    (h : solve2 m fuel = some (false, r)) :
    (∀ v ∈ r.inst_vars, v = UNASSIGNED) ∧ r.saved_domains = [] := by
  have hr : r = Assignment.reset2 m.domains2 :=
    forwardCheckingStep2_restores fuel m (Assignment.reset2 m.domains2) r h
  subst hr
  exact ⟨fun v hv => List.eq_of_mem_replicate hv, rfl⟩

/-- The spec's unsatisfiable instance: `v0, v1 ∈ {0, 1}` with `v0 = v1`
and `v0 ≠ v1` posted. -/
def unsatModel : CSP :=
  { domains2 :=
      [{ type := DomainType.Values, values := [0, 1] },
       { type := DomainType.Values, values := [0, 1] }]
    constraints2 :=
      [Constraint2.op 0 1 COp.Equal 0, Constraint2.op 0 1 COp.NotEqual 0] }

/-- Closed instance of `fc_C8_unsat_post_state` on the spec's
unsatisfiable two-variable model. -/
theorem fc_C8_unsat_post_state_witness :
    (∀ v ∈ (Assignment.reset2 unsatModel.domains2).inst_vars, v = UNASSIGNED) ∧
    (Assignment.reset2 unsatModel.domains2).saved_domains = [] :=
  fc_C8_unsat_post_state unsatModel 5 (Assignment.reset2 unsatModel.domains2) (by decide)

end FCheck

namespace FCheck

/-! Predicates and small lemmas for the soundness theorem (C1). -/

/-- All of a constraint's variables are instantiated. -/
def allInstantiated (c : Constraint2) (inst : List Int) : Prop :=
  ∀ w ∈ c.linkVarsOf, instValue inst w ≠ UNASSIGNED

/-- Every fully instantiated posted constraint is satisfied. -/
def passAll (m : CSP) (inst : List Int) : Prop :=
  ∀ c ∈ m.constraints2, allInstantiated c inst → c.evaluate inst = true

/-- Every element of the list is bounded by `K` in absolute value. -/
def valsBound (K : Int) (l : List Int) : Prop := ∀ x ∈ l, |x| ≤ K

/-- Every current domain's raw value list is bounded by `K`. -/
def domsBound (K : Int) (a : Assignment) : Prop :=
  ∀ d ∈ a.current_domains, valsBound K d.values

/-- Every assigned instantiation is bounded by `K`. -/
def instBound (K : Int) (inst : List Int) : Prop :=
  ∀ v ∈ inst, v ≠ UNASSIGNED → |v| ≤ K

/-- The counter agrees with the number of assigned slots. -/
def syncInv (a : Assignment) : Prop :=
  a.assigned_var_count = (a.inst_vars.countP (fun v => v != UNASSIGNED) : Int)

/-- The `offset` of an `Op` constraint (the other kinds have none). -/
def constraintOffset : Constraint2 → Int
  | .op _ _ _ offset => offset
  | _ => 0

/-- Every constraint's variables are in range for the model. -/
def modelVidsOk (m : CSP) : Prop :=
  ∀ c ∈ m.constraints2, ∀ w ∈ c.linkVarsOf, w < m.domains2.length

/-- Every constraint's offset is bounded by `F`. -/
def modelOffsetBound (m : CSP) (F : Int) : Prop :=
  ∀ c ∈ m.constraints2, |constraintOffset c| ≤ F

theorem linkVarsOf_ne_nil (c : Constraint2) : c.linkVarsOf ≠ [] := by
  cases c <;> simp [Constraint2.linkVarsOf]

theorem tryEvaluate_of_allInst (c : Constraint2) (inst : List Int)
    (h : allInstantiated c inst) :
    c.tryEvaluate inst = (if c.evaluate inst then Eval.Passed else Eval.Failed) := by
  cases c with
  | op v0 v1 o offset =>
    have h0 := h v0 (by simp [Constraint2.linkVarsOf])
    have h1 := h v1 (by simp [Constraint2.linkVarsOf])
    simp only [Constraint2.tryEvaluate]
    rw [if_pos ⟨h0, h1⟩]
  | equality v0 v1 =>
    have h0 := h v0 (by simp [Constraint2.linkVarsOf])
    have h1 := h v1 (by simp [Constraint2.linkVarsOf])
    simp only [Constraint2.tryEvaluate]
    rw [if_pos ⟨h0, h1⟩]
  | orEquality v0 v1 v2 =>
    have h0 := h v0 (by simp [Constraint2.linkVarsOf])
    have h1 := h v1 (by simp [Constraint2.linkVarsOf])
    have h2 := h v2 (by simp [Constraint2.linkVarsOf])
    simp only [Constraint2.tryEvaluate]
    rw [if_pos ⟨h0, h1, h2⟩]
  | combinedEquality v0 v1 v2 v3 =>
    have h0 := h v0 (by simp [Constraint2.linkVarsOf])
    have h1 := h v1 (by simp [Constraint2.linkVarsOf])
    have h2 := h v2 (by simp [Constraint2.linkVarsOf])
    have h3 := h v3 (by simp [Constraint2.linkVarsOf])
    simp only [Constraint2.tryEvaluate]
    rw [if_pos ⟨h0, h1, h2, h3⟩]
  | orRange v0 v1 mn mx =>
    have h0 := h v0 (by simp [Constraint2.linkVarsOf])
    have h1 := h v1 (by simp [Constraint2.linkVarsOf])
    simp only [Constraint2.tryEvaluate]
    rw [if_pos ⟨h0, h1⟩]

theorem evaluate_congr (c : Constraint2) (inst1 inst2 : List Int)
    (h : ∀ w ∈ c.linkVarsOf, instValue inst1 w = instValue inst2 w) :
    c.evaluate inst1 = c.evaluate inst2 := by
  cases c with
  | op v0 v1 o offset =>
    have h0 := h v0 (by simp [Constraint2.linkVarsOf])
    have h1 := h v1 (by simp [Constraint2.linkVarsOf])
    simp only [Constraint2.evaluate, h0, h1]
  | equality v0 v1 =>
    have h0 := h v0 (by simp [Constraint2.linkVarsOf])
    have h1 := h v1 (by simp [Constraint2.linkVarsOf])
    simp only [Constraint2.evaluate, h0, h1]
  | orEquality v0 v1 v2 =>
    have h0 := h v0 (by simp [Constraint2.linkVarsOf])
    have h1 := h v1 (by simp [Constraint2.linkVarsOf])
    have h2 := h v2 (by simp [Constraint2.linkVarsOf])
    simp only [Constraint2.evaluate, h0, h1, h2]
  | combinedEquality v0 v1 v2 v3 =>
    have h0 := h v0 (by simp [Constraint2.linkVarsOf])
    have h1 := h v1 (by simp [Constraint2.linkVarsOf])
    have h2 := h v2 (by simp [Constraint2.linkVarsOf])
    have h3 := h v3 (by simp [Constraint2.linkVarsOf])
    simp only [Constraint2.evaluate, h0, h1, h2, h3]
  | orRange v0 v1 mn mx =>
    have h0 := h v0 (by simp [Constraint2.linkVarsOf])
    have h1 := h v1 (by simp [Constraint2.linkVarsOf])
    simp only [Constraint2.evaluate, h0, h1]

theorem allInst_congr (c : Constraint2) (inst1 inst2 : List Int)
    (h : ∀ w ∈ c.linkVarsOf, instValue inst1 w = instValue inst2 w) :
    allInstantiated c inst1 ↔ allInstantiated c inst2 := by
  constructor
  · intro ha w hw
    rw [← h w hw]
    exact ha w hw
  · intro ha w hw
    rw [h w hw]
    exact ha w hw

theorem instValue_set_ne (inst : List Int) (vid w : VarId) (x : Int) (h : w ≠ vid) :
    instValue (inst.set vid x) w = instValue inst w := by
  show (inst.set vid x).getD w UNASSIGNED = inst.getD w UNASSIGNED
  exact getD_set_ne (Ne.symm h) x UNASSIGNED

theorem instValue_set_self (inst : List Int) (vid : VarId) (x : Int)
    (h : vid < inst.length) : instValue (inst.set vid x) vid = x := by
  show (inst.set vid x).getD vid UNASSIGNED = x
  rw [List.getD_eq_getElem?_getD, List.getElem?_set_self (by simpa using h)]
  rfl

theorem mem_linkedConstraints (m : CSP) (vid : VarId) (c : Constraint2)
    (hc : c ∈ m.constraints2) (hv : vid ∈ c.linkVarsOf) :
    c ∈ m.linkedConstraints vid := by
  simp only [CSP.linkedConstraints, List.mem_flatMap]
  refine ⟨c, hc, ?_⟩
  apply List.mem_map.mpr
  refine ⟨vid, ?_, rfl⟩
  exact List.mem_filter.mpr ⟨hv, by simp⟩

theorem linked_sub (m : CSP) (vid : VarId) (c : Constraint2)
    (hc : c ∈ m.linkedConstraints vid) :
    c ∈ m.constraints2 ∧ vid ∈ c.linkVarsOf := by
  simp only [CSP.linkedConstraints, List.mem_flatMap, List.mem_map] at hc
  obtain ⟨c2, hc2, w, hw, he⟩ := hc
  have hmf := List.mem_filter.mp hw
  have hwv : w = vid := by simpa using hmf.2
  rw [← he]
  exact ⟨hc2, hwv ▸ hmf.1⟩

theorem validate_spec (cs : List Constraint2) (inst : List Int)
    (h : validateConstraints2 cs inst = true) :
    ∀ c ∈ cs, c.tryEvaluate inst ≠ Eval.Failed := by
  intro c hc
  have := List.all_eq_true.mp h c hc
  simpa using this

end FCheck

namespace FCheck

theorem syncInv_assign (a : Assignment) (vid : VarId) (val : Int)
    (h : syncInv a) (hlt : vid < a.inst_vars.length)
    (hun : instValue a.inst_vars vid = UNASSIGNED) (hval : val ≠ UNASSIGNED) :
    syncInv (a.assignVar vid val) := by
  show a.assigned_var_count + 1
    = (((a.inst_vars.set vid val).countP (fun v => v != UNASSIGNED) : Nat) : Int)
  rw [List.countP_set _ _ _ _ hlt]
  have hgv : a.inst_vars[vid] = UNASSIGNED := by
    have hv : instValue a.inst_vars vid = a.inst_vars[vid] := by
      show a.inst_vars.getD vid UNASSIGNED = _
      rw [List.getD_eq_getElem?_getD, List.getElem?_eq_getElem hlt]
      rfl
    rw [← hv, hun]
  rw [hgv, h]
  simp [hval]

theorem all_assigned_of_complete (a : Assignment) (hs : syncInv a)
    (hc : a.isComplete = true) : ∀ v ∈ a.inst_vars, v ≠ UNASSIGNED := by
  have hlen : a.assigned_var_count = (a.inst_vars.length : Int) := by
    simpa [Assignment.isComplete] using hc
  have hcount : a.inst_vars.countP (fun v => v != UNASSIGNED) = a.inst_vars.length := by
    have := hs.symm.trans hlen
    exact_mod_cast this
  have hall := List.countP_eq_length.mp hcount
  intro v hv
  have := hall v hv
  simpa using this

theorem next_lt_of_not_complete (a : Assignment) (hs : syncInv a)
    (hc : a.isComplete = false) : a.nextUnassignedVar < a.inst_vars.length := by
  have hne : a.inst_vars.countP (fun v => v != UNASSIGNED) ≠ a.inst_vars.length := by
    intro he
    have hcc : a.assigned_var_count = (a.inst_vars.length : Int) := by
      rw [hs, he]
    simp [Assignment.isComplete, hcc] at hc
  have hex : ∃ v ∈ a.inst_vars, (fun v => v == UNASSIGNED) v := by
    by_contra hno
    push_neg at hno
    apply hne
    apply List.countP_eq_length.mpr
    intro v hv
    have := hno v hv
    simpa using this
  exact List.findIdx_lt_length_of_exists hex

theorem ne_unassigned_of_abs_le {x K : Int} (hx : |x| ≤ K) (hK : K < 2147483647) :
    x ≠ UNASSIGNED := by
  intro he
  rw [he] at hx
  have habs : |UNASSIGNED| = 2147483647 := by decide
  rw [habs] at hx
  omega

theorem instBound_value (inst : List Int) (K : Int) (h : instBound K inst)
    (w : VarId) (hw : instValue inst w ≠ UNASSIGNED) : |instValue inst w| ≤ K := by
  by_cases hl : w < inst.length
  · have hv : instValue inst w = inst[w] := by
      show inst.getD w UNASSIGNED = _
      rw [List.getD_eq_getElem?_getD, List.getElem?_eq_getElem hl]
      rfl
    rw [hv] at hw ⊢
    exact h _ (List.getElem_mem hl) hw
  · exfalso
    apply hw
    show inst.getD w UNASSIGNED = UNASSIGNED
    rw [List.getD_eq_getElem?_getD, List.getElem?_eq_none (Nat.le_of_not_lt hl)]
    rfl

theorem getCurrentDomain_bound (a : Assignment) (K : Int) (h : domsBound K a)
    (v : VarId) : valsBound K (a.getCurrentDomain v).values := by
  by_cases hl : v < a.current_domains.length
  · have hv : a.getCurrentDomain v = a.current_domains[v] := by
      show a.current_domains.getD v _ = _
      rw [List.getD_eq_getElem?_getD, List.getElem?_eq_getElem hl]
      rfl
    rw [hv]
    exact h _ (List.getElem_mem hl)
  · have hv : a.getCurrentDomain v = { type := DomainType.Values, values := [] } := by
      show a.current_domains.getD v _ = _
      rw [List.getD_eq_getElem?_getD, List.getElem?_eq_none (Nat.le_of_not_lt hl)]
      rfl
    rw [hv]
    intro x hx
    exact absurd hx (List.not_mem_nil x)

theorem rangePairs_mem : ∀ (l : List Int) (p : Int × Int),
    p ∈ rangePairs l → p.1 ∈ l ∧ p.2 ∈ l
  | [], p, hp => absurd hp (by simp [rangePairs])
  | [a], p, hp => absurd hp (by simp [rangePairs])
  | a :: b :: t, p, hp => by
    rw [show rangePairs (a :: b :: t) = (a, b) :: rangePairs t from rfl] at hp
    rcases List.mem_cons.mp hp with h | h
    · subst h
      exact ⟨List.mem_cons_self _ _, List.mem_cons_of_mem _ (List.mem_cons_self _ _)⟩
    · have ih := rangePairs_mem t p h
      exact ⟨List.mem_cons_of_mem _ (List.mem_cons_of_mem _ ih.1),
        List.mem_cons_of_mem _ (List.mem_cons_of_mem _ ih.2)⟩

theorem mem_rangeVals {x lo hi : Int} (h : x ∈ rangeVals lo hi) :
    lo ≤ x ∧ x < hi := by
  rw [rangeVals] at h
  obtain ⟨i, hi2, hx⟩ := List.mem_map.mp h
  have hi3 : i < (hi - lo).toNat := List.mem_range.mp hi2
  have hnn : (0 : Int) ≤ (i : Int) := Int.natCast_nonneg i
  have hlt : (i : Int) < hi - lo := Int.lt_toNat.mp hi3
  rw [← hx]
  constructor
  · omega
  · omega

theorem enumVals_bound (d : Domain) (K : Int) (h : valsBound K d.values) :
    valsBound K d.enumVals := by
  intro x hx
  cases htype : d.type with
  | Values =>
    simp only [Domain.enumVals, htype] at hx
    exact h x hx
  | Ranges =>
    simp only [Domain.enumVals, htype, List.mem_flatMap] at hx
    obtain ⟨p, hp, hxp⟩ := hx
    have hm := rangePairs_mem d.values p hp
    have h1 := h p.1 hm.1
    have h2 := h p.2 hm.2
    have hb := mem_rangeVals hxp
    rw [abs_le] at h1 h2 ⊢
    omega

theorem valsBound_mono {K K2 : Int} (hK : K ≤ K2) {l : List Int}
    (h : valsBound K l) : valsBound K2 l :=
  fun x hx => le_trans (h x hx) hK

theorem valsBound_filterMap_mem {sav : List Int} {K : Int} (hs : valsBound K sav)
    (f : Int → Option Int) (hf : ∀ x z, f x = some z → z = x) :
    valsBound K (sav.filterMap f) := by
  intro z hz
  obtain ⟨x, hx, hfx⟩ := List.mem_filterMap.mp hz
  rw [hf x z hfx]
  exact hs x hx

theorem valsBound_filterMap_const {sav : List Int} {K y : Int} (hy : |y| ≤ K)
    (f : Int → Option Int) (hf : ∀ x z, f x = some z → z = y) :
    valsBound K (sav.filterMap f) := by
  intro z hz
  obtain ⟨x, hx, hfx⟩ := List.mem_filterMap.mp hz
  rw [hf x z hfx]
  exact hy

theorem valsBound_pairs_filterMap {sav : List Int} {K : Int} (hs : valsBound K sav)
    (f : Int × Int → Option Int) (hf : ∀ p z, f p = some z → p.1 ≤ z ∧ z < p.2) :
    valsBound K ((rangePairs sav).filterMap f) := by
  intro z hz
  obtain ⟨p, hp, hfp⟩ := List.mem_filterMap.mp hz
  have hm := rangePairs_mem sav p hp
  have h1 := hs p.1 hm.1
  have h2 := hs p.2 hm.2
  have hb := hf p z hfp
  rw [abs_le] at h1 h2 ⊢
  omega

theorem valsBound_pairs_flatMap {sav : List Int} {K : Int} (hs : valsBound K sav)
    (g : Int × Int → List Int) (hg : ∀ p z, z ∈ g p → p.1 ≤ z ∧ z < p.2) :
    valsBound K ((rangePairs sav).flatMap g) := by
  intro z hz
  obtain ⟨p, hp, hzp⟩ := List.mem_flatMap.mp hz
  have hm := rangePairs_mem sav p hp
  have h1 := hs p.1 hm.1
  have h2 := hs p.2 hm.2
  have hb := hg p z hzp
  rw [abs_le] at h1 h2 ⊢
  omega

end FCheck

namespace FCheck

/-- Every value a single propagation call leaves in any current domain is
bounded by `B + F`, provided `base`'s domains are bounded by `B`, the
instantiations by `B`, the constraint's offset by `F`, and — this is the
one place the bound can grow, the `Values`/not-Equal push of `oth_val` —
the constraint touches at least one assigned variable (true for every
constraint in the propagation loop, which runs over the just-assigned
variable's linked constraints). -/
theorem aplyArc_domsBound (c : Constraint2) (base s : Assignment) (B F : Int)
    (hF : 0 ≤ F)
    (hst : StepInv base s)
    (hbase : domsBound B base)
    (hcur : domsBound (B + F) s)
    (hinst : instBound B s.inst_vars)
    (hoff : |constraintOffset c| ≤ F)
    (htouch : ∃ w ∈ c.linkVarsOf, instValue s.inst_vars w ≠ UNASSIGNED) :
    domsBound (B + F) (c.aplyArcConsistency s).2 := by
  have hBBF : B ≤ B + F := by linarith
  cases c with
  | op v0 v1 o offset =>
    have hoffb : |offset| ≤ F := by simpa [constraintOffset] using hoff
    simp only [Constraint2.aplyArcConsistency]
    by_cases hv0 : instValue s.inst_vars v0 = UNASSIGNED
    · rw [if_pos hv0]
      have hv1 : instValue s.inst_vars v1 ≠ UNASSIGNED := by
        obtain ⟨w, hw, hwne⟩ := htouch
        simp only [Constraint2.linkVarsOf] at hw
        rcases List.mem_cons.mp hw with rfl | hw
        · exact absurd hv0 hwne
        · rcases List.mem_cons.mp hw with rfl | hw
          · exact hwne
          · exact absurd hw (List.not_mem_nil w)
      have hothb : |instValue s.inst_vars v1 + offset| ≤ B + F := by
        have h1 : |instValue s.inst_vars v1| ≤ B :=
          instBound_value s.inst_vars B hinst v1 hv1
        calc |instValue s.inst_vars v1 + offset|
            ≤ |instValue s.inst_vars v1| + |offset| := abs_add _ _
          _ ≤ B + F := add_le_add h1 hoffb
      simp only [opDoCheck]
      intro d hd
      rcases (narrowWith_frame base s v0 _ hst).2.2.2 d hd with hmem | heq
      · exact hcur d hmem
      · rw [heq]
        have hsavB : valsBound B (snapshotOf base v0).values :=
          getCurrentDomain_bound base B hbase v0
        have hsav : valsBound (B + F) (snapshotOf base v0).values :=
          valsBound_mono hBBF hsavB
        cases htt : (s.getCurrentDomain v0).type with
        | Values =>
          simp only [htt]
          by_cases ho : o = COp.Equal
          · rw [if_pos ho]
            apply valsBound_filterMap_mem hsav
            intro x z hf
            split at hf
            · rename_i hc
              rw [← Option.some.inj hf]
              exact hc
            · exact absurd hf (by simp)
          · rw [if_neg ho]
            apply valsBound_filterMap_const hothb
            intro x z hf
            split at hf
            · exact (Option.some.inj hf).symm
            · exact absurd hf (by simp)
        | Ranges =>
          simp only [htt]
          by_cases ho : o = COp.Equal
          · rw [if_pos ho]
            apply valsBound_pairs_filterMap hsav
            intro p z hf
            split at hf
            · rename_i hc
              rw [← Option.some.inj hf]
              exact hc
            · exact absurd hf (by simp)
          · rw [if_neg ho]
            apply valsBound_pairs_flatMap hsav
            intro p z hz
            have hz2 := List.mem_filter.mp hz
            exact mem_rangeVals hz2.1
    · rw [if_neg hv0]
      by_cases hv1 : instValue s.inst_vars v1 = UNASSIGNED
      · rw [if_pos hv1]
        have hothb : |instValue s.inst_vars v0 - offset| ≤ B + F := by
          have h1 : |instValue s.inst_vars v0| ≤ B :=
            instBound_value s.inst_vars B hinst v0 hv0
          calc |instValue s.inst_vars v0 - offset|
              = |instValue s.inst_vars v0 + (-offset)| := by ring_nf
            _ ≤ |instValue s.inst_vars v0| + |(-offset)| := abs_add _ _
            _ = |instValue s.inst_vars v0| + |offset| := by rw [abs_neg]
            _ ≤ B + F := add_le_add h1 hoffb
        simp only [opDoCheck]
        intro d hd
        rcases (narrowWith_frame base s v1 _ hst).2.2.2 d hd with hmem | heq
        · exact hcur d hmem
        · rw [heq]
          have hsavB : valsBound B (snapshotOf base v1).values :=
            getCurrentDomain_bound base B hbase v1
          have hsav : valsBound (B + F) (snapshotOf base v1).values :=
            valsBound_mono hBBF hsavB
          cases htt : (s.getCurrentDomain v1).type with
          | Values =>
            simp only [htt]
            by_cases ho : o = COp.Equal
            · rw [if_pos ho]
              apply valsBound_filterMap_mem hsav
              intro x z hf
              split at hf
              · rename_i hc
                rw [← Option.some.inj hf]
                exact hc
              · exact absurd hf (by simp)
            · rw [if_neg ho]
              apply valsBound_filterMap_const hothb
              intro x z hf
              split at hf
              · exact (Option.some.inj hf).symm
              · exact absurd hf (by simp)
          | Ranges =>
            simp only [htt]
            by_cases ho : o = COp.Equal
            · rw [if_pos ho]
              apply valsBound_pairs_filterMap hsav
              intro p z hf
              split at hf
              · rename_i hc
                rw [← Option.some.inj hf]
                exact hc
              · exact absurd hf (by simp)
            · rw [if_neg ho]
              apply valsBound_pairs_flatMap hsav
              intro p z hz
              have hz2 := List.mem_filter.mp hz
              exact mem_rangeVals hz2.1
      · rw [if_neg hv1]
        exact hcur
  | equality v0 v1 =>
    simp only [Constraint2.aplyArcConsistency]
    by_cases hv0 : instValue s.inst_vars v0 = UNASSIGNED
    · rw [if_pos hv0]
      simp only [eqDoCheck]
      intro d hd
      rcases (narrowWith_frame base s v0 _ hst).2.2.2 d hd with hmem | heq
      · exact hcur d hmem
      · rw [heq]
        have hsav : valsBound (B + F) (snapshotOf base v0).values :=
          valsBound_mono hBBF (getCurrentDomain_bound base B hbase v0)
        cases htt : (s.getCurrentDomain v0).type with
        | Values =>
          simp only [htt]
          apply valsBound_filterMap_mem hsav
          intro x z hf
          split at hf
          · rename_i hc
            rw [← Option.some.inj hf]
            exact hc
          · exact absurd hf (by simp)
        | Ranges =>
          simp only [htt]
          apply valsBound_pairs_filterMap hsav
          intro p z hf
          split at hf
          · rename_i hc
            rw [← Option.some.inj hf]
            exact hc
          · exact absurd hf (by simp)
    · rw [if_neg hv0]
      by_cases hv1 : instValue s.inst_vars v1 = UNASSIGNED
      · rw [if_pos hv1]
        simp only [eqDoCheck]
        intro d hd
        rcases (narrowWith_frame base s v1 _ hst).2.2.2 d hd with hmem | heq
        · exact hcur d hmem
        · rw [heq]
          have hsav : valsBound (B + F) (snapshotOf base v1).values :=
            valsBound_mono hBBF (getCurrentDomain_bound base B hbase v1)
          cases htt : (s.getCurrentDomain v1).type with
          | Values =>
            simp only [htt]
            apply valsBound_filterMap_mem hsav
            intro x z hf
            split at hf
            · rename_i hc
              rw [← Option.some.inj hf]
              exact hc
            · exact absurd hf (by simp)
          | Ranges =>
            simp only [htt]
            apply valsBound_pairs_filterMap hsav
            intro p z hf
            split at hf
            · rename_i hc
              rw [← Option.some.inj hf]
              exact hc
            · exact absurd hf (by simp)
      · rw [if_neg hv1]
        exact hcur
  | orEquality v0 v1 v2 =>
    simp only [Constraint2.aplyArcConsistency]
    split
    · intro d hd
      rcases (narrowWith_frame base s v0 _ hst).2.2.2 d hd with hmem | heq
      · exact hcur d hmem
      · rw [heq]
        have hsav : valsBound (B + F) (snapshotOf base v0).values :=
          valsBound_mono hBBF (getCurrentDomain_bound base B hbase v0)
        cases htt : (s.getCurrentDomain v0).type with
        | Values =>
          simp only [htt]
          apply valsBound_filterMap_mem hsav
          intro x z hf
          split at hf
          · rename_i hc
            rw [← Option.some.inj hf]
            exact hc
          · split at hf
            · rename_i hc2
              rw [← Option.some.inj hf]
              exact hc2
            · exact absurd hf (by simp)
        | Ranges =>
          simp only [htt]
          apply valsBound_pairs_flatMap hsav
          intro p z hz
          rcases List.mem_append.mp hz with hz | hz
          · split at hz
            · rename_i hc
              have : z = instValue s.inst_vars v1 := by simpa using hz
              rw [this]
              exact hc
            · exact absurd hz (by simp)
          · split at hz
            · rename_i hc
              have : z = instValue s.inst_vars v2 := by simpa using hz
              rw [this]
              exact hc
            · exact absurd hz (by simp)
    · exact hcur
  | combinedEquality v0 v1 v2 v3 =>
    simp only [Constraint2.aplyArcConsistency]
    split
    · intro d hd
      rcases (narrowWith_frame base s v0 _ hst).2.2.2 d hd with hmem | heq
      · exact hcur d hmem
      · rw [heq]
        have hsav : valsBound (B + F) (snapshotOf base v0).values :=
          valsBound_mono hBBF (getCurrentDomain_bound base B hbase v0)
        cases htt : (s.getCurrentDomain v0).type with
        | Values =>
          simp only [htt]
          intro z hz
          rcases hfind : (snapshotOf base v0).values.find?
              (fun x => x == instValue s.inst_vars v1 + instValue s.inst_vars v2
                - instValue s.inst_vars v2) with _ | y
          · rw [hfind] at hz
            exact absurd hz (by simp)
          · rw [hfind] at hz
            have hy : y ∈ (snapshotOf base v0).values := List.mem_of_find?_eq_some hfind
            have hyc := List.find?_some hfind
            have hye : y = instValue s.inst_vars v1 + instValue s.inst_vars v2
                - instValue s.inst_vars v2 := by simpa using hyc
            have hzc : z = instValue s.inst_vars v1 + instValue s.inst_vars v2
                - instValue s.inst_vars v2 := by simpa using hz
            rw [hzc, ← hye]
            exact hsav y hy
        | Ranges =>
          simp only [htt]
          intro z hz
          rcases hfind : (rangePairs (snapshotOf base v0).values).find?
              (fun p => decide (p.1 ≤ instValue s.inst_vars v1 + instValue s.inst_vars v2
                  - instValue s.inst_vars v2)
                && decide (instValue s.inst_vars v1 + instValue s.inst_vars v2
                  - instValue s.inst_vars v2 < p.2)) with _ | p
          · rw [hfind] at hz
            exact absurd hz (by simp)
          · rw [hfind] at hz
            have hp : p ∈ rangePairs (snapshotOf base v0).values :=
              List.mem_of_find?_eq_some hfind
            have hpc := List.find?_some hfind
            have hrange : p.1 ≤ instValue s.inst_vars v1 + instValue s.inst_vars v2
                - instValue s.inst_vars v2 ∧
                instValue s.inst_vars v1 + instValue s.inst_vars v2
                - instValue s.inst_vars v2 < p.2 := by
              simpa using hpc
            have hzc : z = instValue s.inst_vars v1 + instValue s.inst_vars v2
                - instValue s.inst_vars v2 := by simpa using hz
            have hm := rangePairs_mem (snapshotOf base v0).values p hp
            have h1 := hsav p.1 hm.1
            have h2 := hsav p.2 hm.2
            rw [hzc]
            rw [abs_le] at h1 h2 ⊢
            omega
    · exact hcur
  | orRange v0 v1 mn mx =>
    exact hcur

end FCheck

namespace FCheck

theorem instBound_mono {K K2 : Int} (h : K ≤ K2) {inst : List Int}
    (hb : instBound K inst) : instBound K2 inst :=
  fun x hx hxne => le_trans (hb x hx hxne) h

theorem instBound_set {K : Int} {inst : List Int} (hb : instBound K inst)
    {vid : VarId} {val : Int} (hv : |val| ≤ K) :
    instBound K (inst.set vid val) := by
  intro x hx hxne
  rcases List.mem_or_eq_of_mem_set hx with hx | hx
  · exact hb x hx hxne
  · rw [hx]
    exact hv

theorem domsBound_mono {K K2 : Int} (h : K ≤ K2) {a : Assignment}
    (hb : domsBound K a) : domsBound K2 a :=
  fun d hd => valsBound_mono h (hb d hd)

/-- The whole propagation loop keeps every domain bounded by `B + F`. -/
theorem propagateAll_bound (cs : List Constraint2) :
    ∀ (base s : Assignment) (B F : Int), 0 ≤ F →
      StepInv base s → domsBound B base → domsBound (B + F) s →
      instBound B s.inst_vars →
      (∀ c ∈ cs, |constraintOffset c| ≤ F) →
      (∀ c ∈ cs, ∃ w ∈ c.linkVarsOf, instValue s.inst_vars w ≠ UNASSIGNED) →
      domsBound (B + F) (propagateAll cs s).2 := by
  induction cs with
  | nil =>
    intro base s B F hF hst hbase hcur hinst hoffs htouchs
    exact hcur
  | cons c rest ih =>
    intro base s B F hF hst hbase hcur hinst hoffs htouchs
    have hbnd := aplyArc_domsBound c base s B F hF hst hbase hcur hinst
      (hoffs c (List.mem_cons_self _ _)) (htouchs c (List.mem_cons_self _ _))
    have hfrm := aplyArc_frame c base s hst
    rcases hr : c.aplyArcConsistency s with ⟨b, a1⟩
    rw [hr] at hbnd hfrm
    cases b with
    | false =>
      simp only [propagateAll, hr]
      exact hbnd
    | true =>
      simp only [propagateAll, hr]
      apply ih base a1 B F hF hfrm.1 hbase hbnd
      · rw [hfrm.2.1]
        exact hinst
      · intro c2 hc2
        exact hoffs c2 (List.mem_cons_of_mem _ hc2)
      · intro c2 hc2
        obtain ⟨w, hw, hwne⟩ := htouchs c2 (List.mem_cons_of_mem _ hc2)
        refine ⟨w, hw, ?_⟩
        rw [hfrm.2.1]
        exact hwne

/-- If the tentative assignment survives validation, all fully
instantiated constraints are still satisfied. -/
theorem passAll_after_assign (m : CSP) (vid : VarId) (inst : List Int) (val : Int)
    (hpass : passAll m inst)
    (hval : validateConstraints2 (m.linkedConstraints vid) (inst.set vid val) = true) :
    passAll m (inst.set vid val) := by
  intro c hcm hall
  by_cases hmem : vid ∈ c.linkVarsOf
  · have hlinked := mem_linkedConstraints m vid c hcm hmem
    have hne := validate_spec _ _ hval c hlinked
    have hchar := tryEvaluate_of_allInst c _ hall
    by_cases hev : c.evaluate (inst.set vid val) = true
    · exact hev
    · exfalso
      apply hne
      rw [hchar, if_neg]
      simpa using hev
  · have hpt : ∀ w ∈ c.linkVarsOf, instValue (inst.set vid val) w = instValue inst w := by
      intro w hw
      exact instValue_set_ne inst vid w val (fun he => hmem (he ▸ hw))
    have hall2 : allInstantiated c inst := (allInst_congr c _ _ hpt).mp hall
    rw [evaluate_congr c _ _ hpt]
    exact hpass c hcm hall2

/-- A complete assignment with the sync and pass invariants satisfies
every posted constraint with verdict `Passed`. -/
theorem concl_of_complete (m : CSP) (a : Assignment)
    (hlen : a.inst_vars.length = m.domains2.length)
    (hsync : syncInv a) (hpass : passAll m a.inst_vars)
    (hvids : modelVidsOk m) (hc : a.isComplete = true) :
    a.isComplete = true ∧
      ∀ c ∈ m.constraints2, c.tryEvaluate a.inst_vars = Eval.Passed := by
  refine ⟨hc, ?_⟩
  intro c hcm
  have hall : allInstantiated c a.inst_vars := by
    intro w hw
    have hwlt : w < a.inst_vars.length := by
      rw [hlen]
      exact hvids c hcm w hw
    have hv : instValue a.inst_vars w = a.inst_vars[w] := by
      show a.inst_vars.getD w UNASSIGNED = _
      rw [List.getD_eq_getElem?_getD, List.getElem?_eq_getElem hwlt]
      rfl
    rw [hv]
    exact all_assigned_of_complete a hsync hc _ (List.getElem_mem hwlt)
  rw [tryEvaluate_of_allInst c _ hall, hpass c hcm hall]
  rfl

end FCheck

namespace FCheck

/-- The candidate loop of one level: if a candidate leads the recursion
to success, the bubbled-up final state is complete and satisfies every
posted constraint.  `hnextF`/`hnextT` are the two behaviours of the
recursive call at one unit less fuel. -/
theorem tryVals_true (m : CSP) (fuel : Nat) (vid : VarId) (B F : Int)
    (hF : 0 ≤ F)
    (hoffs : modelOffsetBound m F)
    (hBlt : B < 2147483647)
    (base : Assignment)
    (hlen : base.inst_vars.length = m.domains2.length)
    (hsync : syncInv base)
    (hdoms : domsBound B base)
    (hinst : instBound B base.inst_vars)
    (hpass : passAll m base.inst_vars)
    (hvlt : vid < base.inst_vars.length)
    (hvun : instValue base.inst_vars vid = UNASSIGNED)
    (hnextF : ∀ x r, forwardCheckingStep2 m fuel x = some (false, r) → r = x)
    (hnextT : ∀ x, x.inst_vars.length = m.domains2.length → syncInv x →
      domsBound (B + F) x → instBound (B + F) x.inst_vars → passAll m x.inst_vars →
      ∀ r, forwardCheckingStep2 m fuel x = some (true, r) →
        r.isComplete = true ∧
          ∀ c ∈ m.constraints2, c.tryEvaluate r.inst_vars = Eval.Passed) :
    ∀ (vals : List Int) (s : Assignment),
      valsBound B vals → LoopInv base s →
      ∀ r, tryVals m (forwardCheckingStep2 m fuel) vid vals s = some (true, r) →
        r.isComplete = true ∧
          ∀ c ∈ m.constraints2, c.tryEvaluate r.inst_vars = Eval.Passed := by
  intro vals
  induction vals with
  | nil =>
    intro s hvals hl r htv
    simp [tryVals] at htv
  | cons v vs ih =>
    intro s hvals hl r htv
    have hvalsvs : valsBound B vs := fun x hx => hvals x (List.mem_cons_of_mem _ hx)
    have hvb : |v| ≤ B := hvals v (List.mem_cons_self _ _)
    have hvne : v ≠ UNASSIGNED := ne_unassigned_of_abs_le hvb hBlt
    have hsun : instValue s.inst_vars vid = UNASSIGNED := by
      rw [hl.2.2.1]
      exact hvun
    have hslt : vid < s.inst_vars.length := by
      rw [hl.2.2.1]
      exact hvlt
    rw [tryVals_cons_eq] at htv
    cases hval : validateConstraints2 (m.linkedConstraints vid)
        ((s.assignVar vid v).inst_vars) with
    | false =>
      rw [lambdaStep_validate_false m _ vid s v hval] at htv
      rw [unAssign_assignVar s vid v hsun] at htv
      exact ih s hvalsvs hl r htv
    | true =>
      have hst1 : StepInv base (s.assignVar vid v) := by
        obtain ⟨fr, hfr⟩ := hl.1
        exact ⟨fr, hfr.1, hfr.2.1, hfr.2.2.1, hfr.2.2.2⟩
      have ha1inst : (s.assignVar vid v).inst_vars = base.inst_vars.set vid v := by
        show s.inst_vars.set vid v = base.inst_vars.set vid v
        rw [hl.2.2.1]
      have ha1doms : domsBound (B + F) (s.assignVar vid v) := by
        intro d hd
        have hdm : d ∈ base.current_domains := by
          have : (s.assignVar vid v).current_domains = base.current_domains := hl.2.1
          rw [this] at hd
          exact hd
        exact valsBound_mono (by linarith) (hdoms d hdm)
      have ha1instB : instBound B (s.assignVar vid v).inst_vars := by
        rw [ha1inst]
        exact instBound_set hinst hvb
      rcases hprop : propagateAll (m.linkedConstraints vid) (s.assignVar vid v)
        with ⟨pb, a2⟩
      have hpf := propagateAll_frame (m.linkedConstraints vid) base
        (s.assignVar vid v) hst1
      rw [hprop] at hpf
      have hbnd := propagateAll_bound (m.linkedConstraints vid) base
        (s.assignVar vid v) B F hF hst1 hdoms ha1doms ha1instB
        (fun c hc => hoffs c (linked_sub m vid c hc).1)
        (fun c hc => ⟨vid, (linked_sub m vid c hc).2, by
          rw [show (s.assignVar vid v).inst_vars = s.inst_vars.set vid v from rfl,
            instValue_set_self s.inst_vars vid v hslt]
          exact hvne⟩)
      rw [hprop] at hbnd
      have ha2inst : a2.inst_vars = base.inst_vars.set vid v := by
        rw [hpf.2.1, ha1inst]
      have ha2count : a2.assigned_var_count = base.assigned_var_count + 1 := by
        rw [hpf.2.2]
        show s.assigned_var_count + 1 = base.assigned_var_count + 1
        rw [hl.2.2.2]
      cases pb with
      | false =>
        rw [lambdaStep_propagate_false m _ vid s v a2 hval hprop] at htv
        have hli := loopInv_after_fail base vid v a2 hvun hpf.1 ha2inst ha2count
        exact ih _ hvalsvs hli.1 r htv
      | true =>
        rw [lambdaStep_propagate_true m _ vid s v a2 hval hprop] at htv
        have hsyncs : syncInv s := by
          show s.assigned_var_count = _
          rw [hl.2.2.1, hl.2.2.2]
          exact hsync
        have hsynca1 : syncInv (s.assignVar vid v) :=
          syncInv_assign s vid v hsyncs hslt hsun hvne
        have hsynca2 : syncInv a2 := by
          show a2.assigned_var_count = _
          rw [hpf.2.1, hpf.2.2]
          exact hsynca1
        have hpassa1 : passAll m (s.assignVar vid v).inst_vars := by
          have hpasss : passAll m s.inst_vars := by
            rw [hl.2.2.1]
            exact hpass
          exact passAll_after_assign m vid s.inst_vars v hpasss hval
        have hpassa2 : passAll m a2.inst_vars := by
          rw [hpf.2.1]
          exact hpassa1
        have hlena2 : a2.inst_vars.length = m.domains2.length := by
          rw [ha2inst, List.length_set]
          exact hlen
        have hinsta2 : instBound (B + F) a2.inst_vars := by
          rw [hpf.2.1]
          exact instBound_mono (by linarith) ha1instB
        cases hn : forwardCheckingStep2 m fuel a2 with
        | none =>
          rw [hn] at htv
          exact absurd htv (by simp)
        | some p =>
          rcases p with ⟨pb2, a3⟩
          cases pb2 with
          | true =>
            rw [hn] at htv
            have hr : r = a3 := by
              simp only [Option.some.injEq, Prod.mk.injEq, true_and] at htv
              exact htv.symm
            rw [hr]
            exact hnextT a2 hlena2 hsynca2 hbnd hinsta2 hpassa2 a3 hn
          | false =>
            rw [hn] at htv
            have ha3 : a3 = a2 := hnextF a2 a3 hn
            rw [ha3] at htv
            have hli := loopInv_after_fail base vid v a2 hvun hpf.1 ha2inst ha2count
            exact ih _ hvalsvs hli.1 r htv

end FCheck

namespace FCheck

/-- Main soundness induction: from a state satisfying the length, sync,
bound and pass invariants, a `true` result of `ForwardCheckingStep2` is a
complete assignment under which every posted constraint evaluates to
`Passed`. -/
theorem forwardCheckingStep2_sound :
    ∀ (fuel : Nat) (m : CSP) (B F : Int) (a : Assignment),
      0 ≤ B → 0 ≤ F → modelVidsOk m → modelOffsetBound m F →
      B + (fuel : Int) * F < 2147483647 →
      a.inst_vars.length = m.domains2.length →
      syncInv a → domsBound B a → instBound B a.inst_vars → passAll m a.inst_vars →
      ∀ r, forwardCheckingStep2 m fuel a = some (true, r) →
        r.isComplete = true ∧
          ∀ c ∈ m.constraints2, c.tryEvaluate r.inst_vars = Eval.Passed := by
  intro fuel
  induction fuel with
  | zero =>
    intro m B F a _ _ _ _ _ _ _ _ _ _ r h
    exact absurd h (by simp [forwardCheckingStep2])
  | succ n ih =>
    intro m B F a hB hF hvids hoffs hlim hlen hsync hdoms hinst hpass r h
    simp only [forwardCheckingStep2] at h
    by_cases hc : a.isComplete
    · rw [if_pos hc] at h
      have hr : r = a := by
        simp only [Option.some.injEq, Prod.mk.injEq, true_and] at h
        exact h.symm
      rw [hr]
      exact concl_of_complete m a hlen hsync hpass hvids hc
    · rw [if_neg hc] at h
      have hcf : a.isComplete = false := by
        simpa using hc
      have hFn : (0 : Int) ≤ (n : Int) * F :=
        mul_nonneg (Int.natCast_nonneg n) hF
      have hFn1 : (0 : Int) ≤ ((n + 1 : Nat) : Int) * F :=
        mul_nonneg (Int.natCast_nonneg (n + 1)) hF
      have hBlt : B < 2147483647 := by linarith
      have hlim2 : (B + F) + (n : Int) * F < 2147483647 := by
        have hcast : ((n + 1 : Nat) : Int) = (n : Int) + 1 := by push_cast; ring
        rw [hcast] at hlim
        linarith [hlim]
      have hvlt : (a.pushFrame).nextUnassignedVar < a.inst_vars.length :=
        next_lt_of_not_complete a hsync hcf
      have hvun : instValue a.inst_vars (a.pushFrame).nextUnassignedVar = UNASSIGNED :=
        nextUnassigned_getD a
      have hloop : LoopInv a a.pushFrame := by
        refine ⟨⟨{ step := 0, domains := [] }, rfl, rfl, ?_, fun j hj => rfl⟩, rfl, rfl, rfl⟩
        intro sd hm
        exact absurd hm (List.not_mem_nil sd)
      have hvalsb : valsBound B
          ((a.pushFrame).getCurrentDomain ((a.pushFrame).nextUnassignedVar)).enumVals :=
        enumVals_bound _ B (getCurrentDomain_bound a B hdoms _)
      exact tryVals_true m n (a.pushFrame).nextUnassignedVar B F hF hoffs hBlt a
        hlen hsync hdoms hinst hpass hvlt hvun
        (fun x rr hx => forwardCheckingStep2_restores n m x rr hx)
        (fun x hx1 hx2 hx3 hx4 hx5 rr hx =>
          ih m (B + F) F x (by linarith) hF hvids hoffs hlim2 hx1 hx2 hx3 hx4 hx5 rr hx)
        _ a.pushFrame hvalsb hloop r h

/-- C1: solution soundness.  For every model whose constraints reference
only declared variables (`modelVidsOk`), whose initial domain values are
bounded by `B` and offsets by `F` with `B + fuel·F < INT_MAX` (this keeps
every integer the search can ever produce away from the `UNASSIGNED`
sentinel `-INT_MAX`; any real 32-bit-safe instance satisfies it), if
`ForwardCheckingStep2` on a freshly `Reset2` assignment returns true,
then the final assignment is complete and every posted constraint,
evaluated on the final `inst_vars`, yields `Passed`. -/
theorem fc_C1_solution_soundness (m : CSP) (B F : Int) (fuel : Nat) (r : Assignment)
    (hB : 0 ≤ B) (hF : 0 ≤ F)
    (hvids : modelVidsOk m)
    (hoffs : modelOffsetBound m F)
    (hdoms : ∀ d ∈ m.domains2, valsBound B d.values)
    (hlim : B + (fuel : Int) * F < 2147483647)
    (h : solve2 m fuel = some (true, r)) :
    r.isComplete = true ∧
      ∀ c ∈ m.constraints2, c.tryEvaluate r.inst_vars = Eval.Passed := by
  apply forwardCheckingStep2_sound fuel m B F (Assignment.reset2 m.domains2)
    hB hF hvids hoffs hlim ?_ ?_ ?_ ?_ ?_ r h
  · show (List.replicate m.domains2.length UNASSIGNED).length = m.domains2.length
    exact List.length_replicate _ _
  · show (0 : Int) = (((List.replicate m.domains2.length UNASSIGNED).countP
        (fun v => v != UNASSIGNED) : Nat) : Int)
    have hz : (List.replicate m.domains2.length UNASSIGNED).countP
        (fun v => v != UNASSIGNED) = 0 := by
      apply List.countP_eq_zero.mpr
      intro x hx
      rw [List.eq_of_mem_replicate hx]
      simp
    rw [hz]
    rfl
  · exact hdoms
  · intro x hx hxne
    exact absurd (List.eq_of_mem_replicate hx) hxne
  · intro c hcm hall
    exfalso
    obtain ⟨w, hw⟩ := List.exists_mem_of_ne_nil _ (linkVarsOf_ne_nil c)
    apply hall w hw
    show (List.replicate m.domains2.length UNASSIGNED).getD w UNASSIGNED = UNASSIGNED
    exact getD_replicate_self _ _ _

/-- A two-variable model with one equality, for the C1 witness. -/
def c1Model : CSP :=
  { domains2 := [{ type := DomainType.Values, values := [0, 1] },
                 { type := DomainType.Values, values := [1] }]
    constraints2 := [Constraint2.equality 0 1] }

/-- The assignment the solver finds on `c1Model`. -/
def c1Result : Assignment :=
  { assigned_var_count := 2
    inst_vars := [1, 1]
    current_domains :=
      [{ type := DomainType.Values, values := [0, 1] },
       { type := DomainType.Values, values := [1] }]
    saved_domains :=
      [{ step := 0, domains := [] },
       { step := 0, domains :=
          [{ var_id := 1, type := DomainType.Values, values := [1] }] }] }

/-- Closed instance of `fc_C1_solution_soundness` on `c1Model`. -/
theorem fc_C1_solution_soundness_witness :
    c1Result.isComplete = true ∧
      ∀ c ∈ c1Model.constraints2, c.tryEvaluate c1Result.inst_vars = Eval.Passed :=
  fc_C1_solution_soundness c1Model 1 0 3 c1Result (by decide) (by decide)
    (by decide : ∀ c ∈ c1Model.constraints2, ∀ w ∈ c.linkVarsOf,
      w < c1Model.domains2.length)
    (by decide : ∀ c ∈ c1Model.constraints2, |constraintOffset c| ≤ 0)
    (by decide : ∀ d ∈ c1Model.domains2, ∀ x ∈ d.values, |x| ≤ 1)
    (by decide) (by decide)

end FCheck
